import Mathlib

/-!
Verification development for the distninja build-graph server.

We shallowly embed the core of the repository: the quad-based graph store
(`store` package), its write operations (`AddRule`, `AddBuild`,
`UpdateTargetStatus`), its queries (`GetBuildDependencies`, `GetAllTargets`,
`GetBuildOrder`, `FindCycles`), the JSON (de)serialization of the
`variables` fields (`SetVariables` / `GetVariables`), and the Ninja parser
(`parser` package: `ParseAndLoad`, `saveBuild`, `parseFilePaths`).

Modelling conventions:

* Go strings are modelled as `List Char` (`Str`).  The Go code only ever
  searches for ASCII bytes (`.`, `:`, `=`, `|`, `$`, `#`, spaces), and for
  those the byte-level operations of the `strings` package coincide with
  the character-level operations used here.
* The Cayley quad store is modelled, following the specification of the
  store component, as an insertion-ordered set of triples: writing a quad
  that is already present reconciles to the same store ("two writes with
  the same identity reconcile to one node").  Iteration order is the
  insertion order; the Go store's enumeration order is unspecified, and
  every fact proved about a concrete enumeration below is stable under it
  or is explicitly about one run of the modelled enumeration.
* All node identities in the Go code are produced by
  `fmt.Sprintf("rule:%s" / "build:%s" / "target:%s" / "file:%s", x)` or are
  the four fixed type names.  Because these prefixes are pairwise distinct,
  the identity strings are in bijection with the structured `NIri` type
  used here, which keeps equality of identities decidable and transparent.
* Predicates written as `quad.IRI` (the schema field predicates and the
  `status` / `last_modified` predicates of `UpdateTargetStatus`) are
  `QPred.fld`; predicates written as `quad.String` (the five relationship
  predicates) are `QPred.rel`, exactly the distinction the Go queries make.
* Functions that are recursive on a quantity Go controls with a loop index
  take an explicit fuel argument; every caller passes fuel larger than the
  input length, so the fuel case is unreachable.
-/

set_option maxRecDepth 100000

namespace DistNinja

/-- Go strings, modelled as lists of characters. -/
abbrev Str := List Char

/-- ASCII white space per Go's `unicode.IsSpace` (the Latin-1 additions
`U+0085`, `U+00A0` never occur in the inputs considered here). -/
def goIsSpace (c : Char) : Bool :=
  c = ' ' || c = '\t' || c = '\n' || c = '\x0b' || c = '\x0c' || c = '\r'

/-- Go `strings.TrimSpace`. -/
def goTrim (l : Str) : Str :=
  ((l.dropWhile goIsSpace).reverse.dropWhile goIsSpace).reverse

/-- Go `strings.HasPrefix pat l` (arguments: the pattern first). -/
def goStarts : Str → Str → Bool
  | [], _ => true
  | _ :: _, [] => false
  | a :: as, b :: bs => a == b && goStarts as bs

/-- Go `strings.HasSuffix pat l`. -/
def goEnds (pat l : Str) : Bool :=
  goStarts pat.reverse l.reverse

/-- Splits at the first occurrence of the character `sep`; `none` when
`sep` does not occur.  This is Go's `strings.SplitN(s, sep, 2)`, which
returns a one-element slice exactly when `sep` is absent. -/
def splitFirst (sep : Char) : Str → Option (Str × Str)
  | [] => none
  | c :: r =>
    if c = sep then some ([], r)
    else (splitFirst sep r).map (fun p => (c :: p.1, p.2))

/-- First occurrence of the (non-empty) sequence `pat`: the part before it
and the part after it. -/
def splitSeqFirst (pat : Str) : Str → Option (Str × Str)
  | [] => none
  | c :: r =>
    if goStarts pat (c :: r) then some ([], (c :: r).drop pat.length)
    else (splitSeqFirst pat r).map (fun p => (c :: p.1, p.2))

/-- Go `strings.Split` (fuelled; callers pass `l.length + 1`). -/
def goSplitF (pat : Str) : Nat → Str → List Str
  | 0, l => [l]
  | f + 1, l =>
    match splitSeqFirst pat l with
    | none => [l]
    | some (pre, post) => pre :: goSplitF pat f post

/-- Go `strings.Split(l, pat)` for non-empty `pat`. -/
def goSplit (pat l : Str) : List Str :=
  goSplitF pat (l.length + 1) l

/-- Go `strings.ReplaceAll` (fuelled). -/
def goReplaceAllF (pat rep : Str) : Nat → Str → Str
  | 0, l => l
  | f + 1, l =>
    match splitSeqFirst pat l with
    | none => l
    | some (pre, post) => pre ++ rep ++ goReplaceAllF pat rep f post

/-- Go `strings.ReplaceAll(l, pat, rep)` for non-empty `pat`. -/
def goReplaceAll (pat rep l : Str) : Str :=
  goReplaceAllF pat rep (l.length + 1) l

/-- Accumulator pass of Go `strings.Fields`. -/
def goFieldsAux : Str → Str → List Str
  | [], cur => if cur = [] then [] else [cur.reverse]
  | c :: rest, cur =>
    if goIsSpace c then
      if cur = [] then goFieldsAux rest []
      else cur.reverse :: goFieldsAux rest []
    else goFieldsAux rest (c :: cur)

/-- Go `strings.Fields`: the maximal runs of non-space characters. -/
def goFields (l : Str) : List Str :=
  goFieldsAux l []

/-- ASCII lower-casing, as applied by `strings.ToLower` to the extension
strings compared against the ASCII table of `inferFileType`. -/
def goToLower (l : Str) : Str :=
  l.map fun c => if 'A' ≤ c && c ≤ 'Z' then Char.ofNat (c.toNat + 32) else c

/-! ## The quad data model

The four entity kinds of the `store` package and the quads the Cayley
schema writer emits for them. -/

/-- The identity values (`quad.IRI`) occurring in the Go code: the four
prefixed identity families and the four type names registered with
`schema.RegisterType`.  The corresponding Go strings (`"rule:" + name`,
…, `"NinjaRule"`, …) are pairwise distinct, so this structured type is in
bijection with the identity strings actually stored. -/
inductive NIri where
  | ruleId (name : Str)
  | buildId (id : Str)
  | targetId (p : Str)
  | fileId (p : Str)
  | tyRule
  | tyBuild
  | tyTarget
  | tyFile
deriving DecidableEq, Repr

/-- Quad predicates.  `fld f` is a predicate written as `quad.IRI f`
(the schema field predicates such as `name`, `command`, `status`,
`rdf:type`, and the `status` / `last_modified` predicates of
`UpdateTargetStatus`); `rel f` is a predicate written as `quad.String f`
(the five relationship predicates).  The Go queries distinguish the two
spellings, e.g. `q.Predicate == quad.String(PredicateHasInput)` versus
`q.Predicate.String() == "<rule>"`. -/
inductive QPred where
  | fld (f : String)
  | rel (f : String)
deriving DecidableEq, Repr

/-- Quad objects: an identity, a string literal, or a timestamp
(`quad.Time`, used only by `UpdateTargetStatus`). -/
inductive QObj where
  | node (i : NIri)
  | lit (s : Str)
  | time (t : Nat)
deriving DecidableEq, Repr

/-- One stored triple (the Go store's labels are always nil). -/
structure Quad where
  sub : NIri
  prd : QPred
  obj : QObj
deriving DecidableEq, Repr

/-- The store: an insertion-ordered list of distinct quads. -/
abbrev Store := List Quad

/-- Adding one quad: a quad already present reconciles to the same store. -/
def insertQuad (S : Store) (q : Quad) : Store :=
  if q ∈ S then S else S ++ [q]

/-- Adding a batch of quads in order. -/
def insertQuads (S : Store) (qs : List Quad) : Store :=
  qs.foldl insertQuad S

/-! ## Records and their quads -/

/-- Model of `store.NinjaRule` (the `ID` and `Type` fields are stamped from `Name`
at write time by `AddRule`, so they are not carried separately). -/
structure NinjaRule where
  name : Str
  command : Str
  description : Str
  vars : Str
deriving DecidableEq, Repr

/-- Model of `store.NinjaBuild`. -/
structure NinjaBuild where
  buildID : Str
  rule : NIri
  vars : Str
  pool : Str
deriving DecidableEq, Repr

/-- Model of `store.NinjaTarget`. -/
structure NinjaTarget where
  path : Str
  status : Str
  hash : Str
  build : NIri
deriving DecidableEq, Repr

/-- Model of `store.NinjaFile`. -/
structure NinjaFile where
  path : Str
  fileType : Str
deriving DecidableEq, Repr

/-- The quads `schema.WriteAsQuads` emits for a rule record with
`ID = rule:<name>` and `Type = NinjaRule`. -/
def ruleQuads (r : NinjaRule) : List Quad :=
  [ ⟨.ruleId r.name, .fld "rdf:type", .node .tyRule⟩,
    ⟨.ruleId r.name, .fld "name", .lit r.name⟩,
    ⟨.ruleId r.name, .fld "command", .lit r.command⟩,
    ⟨.ruleId r.name, .fld "description", .lit r.description⟩,
    ⟨.ruleId r.name, .fld "variables", .lit r.vars⟩ ]

/-- The quads for a build record with `ID = build:<build_id>`. -/
def buildQuads (b : NinjaBuild) : List Quad :=
  [ ⟨.buildId b.buildID, .fld "rdf:type", .node .tyBuild⟩,
    ⟨.buildId b.buildID, .fld "build_id", .lit b.buildID⟩,
    ⟨.buildId b.buildID, .fld "rule", .node b.rule⟩,
    ⟨.buildId b.buildID, .fld "variables", .lit b.vars⟩,
    ⟨.buildId b.buildID, .fld "pool", .lit b.pool⟩ ]

/-- The quads for a target record with `ID = target:<path>`. -/
def targetQuads (t : NinjaTarget) : List Quad :=
  [ ⟨.targetId t.path, .fld "rdf:type", .node .tyTarget⟩,
    ⟨.targetId t.path, .fld "path", .lit t.path⟩,
    ⟨.targetId t.path, .fld "status", .lit t.status⟩,
    ⟨.targetId t.path, .fld "hash", .lit t.hash⟩,
    ⟨.targetId t.path, .fld "build", .node t.build⟩ ]

/-- The quads for a file record with `ID = file:<path>`. -/
def fileQuads (fl : NinjaFile) : List Quad :=
  [ ⟨.fileId fl.path, .fld "rdf:type", .node .tyFile⟩,
    ⟨.fileId fl.path, .fld "path", .lit fl.path⟩,
    ⟨.fileId fl.path, .fld "file_type", .lit fl.fileType⟩ ]

/-- Extension extraction of `store.inferFileType`: it lower-cases `path[strings.LastIndex(path, ".")+1:]`.
When the path has no dot, `LastIndex` is `-1` and the slice is the whole
path; `(p.reverse.takeWhile (· ≠ '.')).reverse` computes the same suffix
in both cases. -/
def extAfterLastDot (p : Str) : Str :=
  (p.reverse.takeWhile (· ≠ '.')).reverse

/-- Model of `store.inferFileType`. -/
def inferFileType (p : Str) : Str :=
  let ext := goToLower (extAfterLastDot p)
  if ext = "cpp".data || ext = "cc".data || ext = "cxx".data || ext = "c".data then
    "source".data
  else if ext = "h".data || ext = "hpp".data || ext = "hxx".data then
    "header".data
  else if ext = "o".data || ext = "obj".data then
    "object".data
  else if ext = "a".data || ext = "lib".data then
    "library".data
  else if ext = "exe".data || ext = [] then
    "executable".data
  else
    "unknown".data

/-! ## Write operations -/

/-- Model of `store.AddRule`: stamps the identity and writes the record quads. -/
def addRule (S : Store) (r : NinjaRule) : Store :=
  insertQuads S (ruleQuads r)

/-- The relationship quads `AddBuild` collects into its `quads` slice, in
the order the Go loops append them: `has_output` per output, then per
input its `has_input` followed by one `depends_on` per output, then per
implicit dep its `has_implicit_dep` followed by one `depends_on` per
output, then `has_order_dep` per order dep. -/
def addBuildRelQuads (b : NinjaBuild)
    (inputs outputs implicitDeps orderDeps : List Str) : List Quad :=
  (outputs.map fun o =>
    (⟨.buildId b.buildID, .rel "has_output", .node (.targetId o)⟩ : Quad))
  ++ (inputs.flatMap fun i =>
        (⟨.buildId b.buildID, .rel "has_input", .node (.fileId i)⟩ : Quad)
        :: outputs.map fun o =>
             (⟨.targetId o, .rel "depends_on", .node (.fileId i)⟩ : Quad))
  ++ (implicitDeps.flatMap fun d =>
        (⟨.buildId b.buildID, .rel "has_implicit_dep", .node (.fileId d)⟩ : Quad)
        :: outputs.map fun o =>
             (⟨.targetId o, .rel "depends_on", .node (.fileId d)⟩ : Quad))
  ++ (orderDeps.map fun od =>
        (⟨.buildId b.buildID, .rel "has_order_dep", .node (.fileId od)⟩ : Quad))

/-- All quads one `AddBuild` call writes, in write order: the build record,
the target record of each output (with `status = "clean"`, `hash = "none"`,
and the build back-edge), the file record of each input and implicit dep
(with the inferred file type), then the collected relationship quads. -/
def addBuildQuads (b : NinjaBuild)
    (inputs outputs implicitDeps orderDeps : List Str) : List Quad :=
  buildQuads b
  ++ (outputs.flatMap fun o =>
        targetQuads ⟨o, "clean".data, "none".data, .buildId b.buildID⟩)
  ++ (inputs.flatMap fun i => fileQuads ⟨i, inferFileType i⟩)
  ++ (implicitDeps.flatMap fun d => fileQuads ⟨d, inferFileType d⟩)
  ++ addBuildRelQuads b inputs outputs implicitDeps orderDeps

/-- Model of `store.AddBuild`. -/
def addBuild (S : Store) (b : NinjaBuild)
    (inputs outputs implicitDeps orderDeps : List Str) : Store :=
  insertQuads S (addBuildQuads b inputs outputs implicitDeps orderDeps)

/-! ## Record loading

`schema.LoadTo` reconstructs a record from the quads with the given
subject; it fails (`NotFound`) when they are absent.  The first stored
value of each field is used; the stores built by the operations above
never hold conflicting field values for one subject. -/

/-- The first object stored for a `fld` predicate of a subject. -/
def findFld (S : Store) (i : NIri) (f : String) : Option QObj :=
  (S.find? fun q => q.sub == i && q.prd == QPred.fld f).map (·.obj)

def litOf : Option QObj → Option Str
  | some (.lit s) => some s
  | _ => none

def nodeOf : Option QObj → Option NIri
  | some (.node i) => some i
  | _ => none

/-- Load a build record by identity (`store.GetBuild` /
the back-edge load inside `GetBuildDependencies`). -/
def loadBuild (S : Store) (i : NIri) : Option NinjaBuild := do
  if (⟨i, .fld "rdf:type", .node .tyBuild⟩ : Quad) ∈ S then
    let bid ← litOf (findFld S i "build_id")
    let rl ← nodeOf (findFld S i "rule")
    let vars ← litOf (findFld S i "variables")
    let pool ← litOf (findFld S i "pool")
    pure ⟨bid, rl, vars, pool⟩
  else none

/-- Load a target record by identity. -/
def loadTargetIri (S : Store) (i : NIri) : Option NinjaTarget := do
  if (⟨i, .fld "rdf:type", .node .tyTarget⟩ : Quad) ∈ S then
    let p ← litOf (findFld S i "path")
    let st ← litOf (findFld S i "status")
    let h ← litOf (findFld S i "hash")
    let b ← nodeOf (findFld S i "build")
    pure ⟨p, st, h, b⟩
  else none

/-- Model of `store.GetTarget`: load the target record of `target:<path>`. -/
def loadTarget (S : Store) (p : Str) : Option NinjaTarget :=
  loadTargetIri S (.targetId p)

/-- Load a file record by identity. -/
def loadFile (S : Store) (i : NIri) : Option NinjaFile := do
  if (⟨i, .fld "rdf:type", .node .tyFile⟩ : Quad) ∈ S then
    let p ← litOf (findFld S i "path")
    let ft ← litOf (findFld S i "file_type")
    pure ⟨p, ft⟩
  else none

/-! ## Queries -/

/-- Model of `store.GetBuildDependencies`: load the target, follow its build
back-edge, then scan every quad of the store in order, collecting the
loaded file of each `has_input` and each `has_implicit_dep` quad whose
subject is that build (quads whose file fails to load are skipped, as in
the Go `continue`). -/
def getBuildDependencies (S : Store) (targetPath : Str) :
    Option (List NinjaFile) := do
  let t ← loadTarget S targetPath
  let _ ← loadBuild S t.build
  pure (S.filterMap fun q =>
    if q.sub == t.build && q.prd == QPred.rel "has_input" then
      match q.obj with
      | .node i => loadFile S i
      | _ => none
    else if q.sub == t.build && q.prd == QPred.rel "has_implicit_dep" then
      match q.obj with
      | .node i => loadFile S i
      | _ => none
    else none)

/-- Model of `store.GetAllTargets`: collect the subjects of `rdf:type → NinjaTarget`
quads (each subject once, in first-occurrence order, modelling the Go
`map[quad.Value]bool`), then load each; targets that fail to load are
skipped. -/
def getAllTargets (S : Store) : List NinjaTarget :=
  let tIris := (S.filterMap fun q =>
    match q with
    | { sub := s, prd := .fld "rdf:type", obj := .node .tyTarget } => some s
    | _ => none).eraseDups
  tIris.filterMap fun i => loadTargetIri S i

/-! ## Graph algorithms

`GetBuildOrder` keeps its working graph in Go maps (`map[string][]string`,
`map[string]int`).  Go map iteration order is unspecified; the model keeps
entries in insertion order, one deterministic run of the Go code. -/

/-- Value of a string-keyed map entry, with Go's zero value as default. -/
def alGetN (m : List (Str × Int)) (k : Str) : Int :=
  (((m.find? fun e => e.1 == k).map (·.2)).getD 0)

def alGetL (m : List (Str × List Str)) (k : Str) : List Str :=
  (((m.find? fun e => e.1 == k).map (·.2)).getD [])

def alHasKeyN (m : List (Str × Int)) (k : Str) : Bool :=
  m.any fun e => e.1 == k

def alHasKeyL (m : List (Str × List Str)) (k : Str) : Bool :=
  m.any fun e => e.1 == k

/-- Map update `m[k] = v` (overwrite in place, append when absent). -/
def alSetN (m : List (Str × Int)) (k : Str) (v : Int) : List (Str × Int) :=
  if alHasKeyN m k then m.map fun e => if e.1 == k then (k, v) else e
  else m ++ [(k, v)]

def alSetL (m : List (Str × List Str)) (k : Str) (v : List Str) :
    List (Str × List Str) :=
  if alHasKeyL m k then m.map fun e => if e.1 == k then (k, v) else e
  else m ++ [(k, v)]

/-- Queue-processing loop of Kahn's algorithm in `GetBuildOrder`: dequeue,
emit, decrement the in-degree of each successor and enqueue those that
reach exactly zero.  In-degrees are Go `int`s, so a decrement below zero
does not enqueue.  Fuelled: total enqueues are bounded by nodes plus
edges, and callers pass more fuel than that. -/
def kahnLoop (g : List (Str × List Str)) :
    Nat → List (Str × Int) → List Str → List Str → List Str
  | 0, _, _, res => res
  | f + 1, indeg, queue, res =>
    match queue with
    | [] => res
    | cur :: queue' =>
      let step := (alGetL g cur).foldl
        (fun (st : List (Str × Int) × List Str) nb =>
          let d := alGetN st.1 nb - 1
          (alSetN st.1 nb d, if d = 0 then st.2 ++ [nb] else st.2))
        (indeg, queue')
      kahnLoop g f step.1 step.2 (res ++ [cur])

/-- Model of `store.GetBuildOrder`: Kahn's algorithm over the target-induced
subgraph.  Nodes are all targets; for each target, each of its
`GetBuildDependencies` results that is itself a target contributes an edge
dependency → target (targets whose dependencies fail to load are skipped).
Fails with the circular-dependency error when fewer nodes are emitted
than exist. -/
def getBuildOrder (S : Store) : Except String (List Str) :=
  let allTargets := getAllTargets S
  if allTargets.isEmpty then .ok []
  else
    let init : List (Str × List Str) × List (Str × Int) :=
      allTargets.foldl
        (fun gi t => (alSetL gi.1 t.path [], alSetN gi.2 t.path 0))
        ([], [])
    let populated : List (Str × List Str) × List (Str × Int) :=
      allTargets.foldl
        (fun gi t =>
          match getBuildDependencies S t.path with
          | none => gi
          | some deps =>
            deps.foldl
              (fun (gi : List (Str × List Str) × List (Str × Int)) dep =>
                if alHasKeyL gi.1 dep.path then
                  (alSetL gi.1 dep.path (alGetL gi.1 dep.path ++ [t.path]),
                   alSetN gi.2 t.path (alGetN gi.2 t.path + 1))
                else gi)
              gi)
        init
    let g := populated.1
    let indeg := populated.2
    let queue := (indeg.filter fun e => e.2 == 0).map (·.1)
    let fuel := allTargets.length
      + g.foldl (fun n e => n + e.2.length) 0 + 1
    let result := kahnLoop g fuel indeg queue []
    if result.length ≠ allTargets.length then
      .error "circular dependency detected in build graph"
    else .ok result

/-- State of the `FindCycles` depth-first search: the `visited` color map
(Go zero value `0` = unvisited, `1` = visiting, `2` = visited), the cycles
collected so far, and the current path. -/
structure DfsState where
  visited : List (Str × Int)
  cycles : List (List Str)
  path : List Str
deriving DecidableEq, Repr

/-- Whether a key is present in the `visited` map — the test
`_, exists := visited[dep.Path]` of the Go code. -/
def visitedHasKey (m : List (Str × Int)) (k : Str) : Bool :=
  m.any fun e => e.1 == k

/-- The recursive `dfs` closure of `store.FindCycles`.  On a `visiting`
node the slice of the current path from that node's first occurrence is
recorded as a cycle (Go records nothing when the node is absent from the
path); on a `visited` node it returns; otherwise it colors the node
`visiting`, pushes it, and recurses into exactly those dependencies whose
path is already a key of `visited`.  A failing dependency query aborts
(`none`).  Fuelled; callers pass more fuel than the number of targets,
which bounds the recursion depth. -/
def fcDfs (S : Store) : Nat → Str → DfsState → Option DfsState
  | 0, _, _ => none
  | f + 1, target, st =>
    if alGetN st.visited target = 1 then
      let start := st.path.findIdx (· == target)
      some { st with
        cycles :=
          if st.path.any (· == target) then st.cycles ++ [st.path.drop start]
          else st.cycles }
    else if alGetN st.visited target = 2 then some st
    else
      let st1 : DfsState :=
        { st with visited := alSetN st.visited target 1,
                  path := st.path ++ [target] }
      match getBuildDependencies S target with
      | none => none
      | some deps => do
        let st2 ← deps.foldlM
          (fun acc dep =>
            if visitedHasKey acc.visited dep.path then fcDfs S f dep.path acc
            else pure acc)
          st1
        pure { st2 with visited := alSetN st2.visited target 2,
                        path := st2.path.dropLast }

/-- Model of `store.FindCycles`: run the DFS from every target still unvisited, in
enumeration order.  Returns the collected cycles, or `none` when a
dependency query fails. -/
def findCycles (S : Store) : Option (List (List Str)) := do
  let targets := getAllTargets S
  let st ← targets.foldlM
    (fun st t =>
      if alGetN st.visited t.path = 0 then
        fcDfs S (targets.length + 1) t.path st
      else pure st)
    (⟨[], [], []⟩ : DfsState)
  pure st.cycles

/-- Model of `store.UpdateTargetStatus`: one transaction that removes every quad
`(target:<path>, status, _)` (predicate spelled `quad.IRI("status")`, the
same spelling the schema writer uses for the target's status field) and
adds the new status together with a `last_modified` timestamp.  There is
no existence check for the target; the Go function returns an error only
when the backing store fails, so the model is total. -/
def updateTargetStatus (S : Store) (p status : Str) (now : Nat) : Store :=
  let removed := S.filter fun q =>
    !(q.sub == NIri.targetId p && q.prd == QPred.fld "status")
  insertQuads removed
    [⟨.targetId p, .fld "status", .lit status⟩,
     ⟨.targetId p, .fld "last_modified", .time now⟩]

/-- The gRPC handler `UpdateTargetStatus` of the `server` package: unlike
the HTTP handler `updateTargetStatusHandler`, it loads the target first
and fails before touching the store when it is absent. -/
def grpcUpdateTargetStatus (S : Store) (p status : Str) (now : Nat) :
    Except String Store :=
  if status = [] then .error "status field is required"
  else
    match loadTarget S p with
    | none => .error "target not found"
    | some _ => .ok (updateTargetStatus S p status now)

/-- The HTTP handler `updateTargetStatusHandler` of the `server` package:
it calls `UpdateTargetStatus` directly, with no existence check and no
empty-status check. -/
def httpUpdateTargetStatusHandler (S : Store) (p status : Str) (now : Nat) :
    Store :=
  updateTargetStatus S p status now

/-! ## The `variables` JSON fields

`SetVariables` stores a `map[string]string` as JSON text via
`encoding/json.Marshal` (which emits the keys in sorted byte order and
escapes `"`, `\`, control characters, `<`, `>`, `&`, `U+2028`, `U+2029`);
`GetVariables` parses it back with `json.Unmarshal`.  The decoder below is
the restriction of `json.Unmarshal` for `map[string]string` to the
whitespace-free documents the encoder produces. -/

/-- The two-character string the Go code stores for an empty map. -/
def emptyObjStr : Str := ['{', '}']

/-- Byte-wise (equivalently, for UTF-8, code-point-wise) strict order on
strings, the order in which `json.Marshal` emits map keys. -/
def strLtB : Str → Str → Bool
  | [], [] => false
  | [], _ :: _ => true
  | _ :: _, [] => false
  | a :: as, b :: bs => if a < b then true else if b < a then false else strLtB as bs

/-- Non-strict key order on map entries. -/
def varKeyOrd (a b : Str × Str) : Prop :=
  (strLtB a.1 b.1 || a.1 == b.1) = true

instance : DecidableRel varKeyOrd := fun a b =>
  inferInstanceAs (Decidable ((strLtB a.1 b.1 || a.1 == b.1) = true))

/-- Lower-case hexadecimal digit, as in the Go encoder's `hex` table. -/
def hexDigit (n : Nat) : Char :=
  "0123456789abcdef".data.getD n '0'

/-- The escape sequence `json.Marshal` emits for one character. -/
def escChar (c : Char) : Str :=
  if c = '"' then ['\\', '"']
  else if c = '\\' then ['\\', '\\']
  else if c = '\n' then ['\\', 'n']
  else if c = '\r' then ['\\', 'r']
  else if c = '\t' then ['\\', 't']
  else if c.toNat < 0x20 || c = '<' || c = '>' || c = '&' then
    ['\\', 'u', '0', '0', hexDigit (c.toNat / 16), hexDigit (c.toNat % 16)]
  else if c.toNat = 0x2028 || c.toNat = 0x2029 then
    ['\\', 'u', '2', '0', '2', hexDigit (c.toNat % 16)]
  else [c]

/-- The escaped body of a JSON string. -/
def escStr (s : Str) : Str :=
  s.flatMap escChar

/-- A quoted JSON string. -/
def qstr (s : Str) : Str :=
  '"' :: escStr s ++ ['"']

/-- The comma-separated `"key":"value"` entries of a JSON object. -/
def marshalPairs : List (Str × Str) → Str
  | [] => []
  | [(k, v)] => qstr k ++ ':' :: qstr v
  | (k, v) :: rest => qstr k ++ ':' :: qstr v ++ ',' :: marshalPairs rest

/-- Model of `json.Marshal` on a `map[string]string` represented as an association
list: entries in sorted key order inside braces. -/
def jsonMarshalMap (l : List (Str × Str)) : Str :=
  '{' :: marshalPairs (List.insertionSort varKeyOrd l) ++ ['}']

/-- Model of `SetVariables` (identical on `NinjaBuild` and `NinjaRule`): the empty
map becomes `{}` — never the empty string — and any other map becomes its
JSON text. -/
def setVariables (l : List (Str × Str)) : Str :=
  if l = [] then emptyObjStr else jsonMarshalMap l

/-- Hexadecimal digit value accepted by the JSON decoder. -/
def unhex (c : Char) : Option Nat :=
  if '0' ≤ c && c ≤ '9' then some (c.toNat - 48)
  else if 'a' ≤ c && c ≤ 'f' then some (c.toNat - 87)
  else if 'A' ≤ c && c ≤ 'F' then some (c.toNat - 55)
  else none

/-- Decode a JSON string body up to its closing quote, returning the
decoded content and the input after the quote.  Fuelled by the number of
decoded characters. -/
def parseStrBody : Nat → Str → Option (Str × Str)
  | 0, _ => none
  | f + 1, l =>
    match l with
    | [] => none
    | c :: rest =>
      if c = '"' then some ([], rest)
      else if c = '\\' then
        match rest with
        | [] => none
        | e :: rest' =>
          if e = '"' || e = '\\' || e = '/' then
            (parseStrBody f rest').map fun p => (e :: p.1, p.2)
          else if e = 'n' then
            (parseStrBody f rest').map fun p => ('\n' :: p.1, p.2)
          else if e = 'r' then
            (parseStrBody f rest').map fun p => ('\r' :: p.1, p.2)
          else if e = 't' then
            (parseStrBody f rest').map fun p => ('\t' :: p.1, p.2)
          else if e = 'b' then
            (parseStrBody f rest').map fun p => ('\x08' :: p.1, p.2)
          else if e = 'f' then
            (parseStrBody f rest').map fun p => ('\x0c' :: p.1, p.2)
          else if e = 'u' then
            match rest' with
            | h1 :: h2 :: h3 :: h4 :: rest4 =>
              match unhex h1, unhex h2, unhex h3, unhex h4 with
              | some a, some b, some c3, some d =>
                (parseStrBody f rest4).map fun p =>
                  (Char.ofNat (a * 4096 + b * 256 + c3 * 16 + d) :: p.1, p.2)
              | _, _, _, _ => none
            | _ => none
          else none
      else (parseStrBody f rest).map fun p => (c :: p.1, p.2)

/-- Expect the opening brace of an object. -/
def expectOpenBrace : Str → Option Str
  | '{' :: r => some r
  | _ => none

/-- Expect an opening quote. -/
def expectQuote : Str → Option Str
  | '"' :: r => some r
  | _ => none

/-- Expect the `:` separator followed by the value's opening quote. -/
def expectColonQuote : Str → Option Str
  | ':' :: '"' :: r => some r
  | _ => none

/-- After one `"k":"v"` entry: a comma means more entries follow, a
closing brace ends the object. -/
def pairEnd : Str → Option (Bool × Str)
  | ',' :: r => some (true, r)
  | '}' :: r => some (false, r)
  | _ => none

/-- Decode the `"k":"v"` entries of a non-empty object, starting right
after the opening brace and consuming the closing brace. -/
def parsePairsF : Nat → Str → Option (List (Str × Str) × Str)
  | 0, _ => none
  | f + 1, l =>
    (expectQuote l).bind fun r =>
    (parseStrBody (r.length + 1) r).bind fun kp =>
    (expectColonQuote kp.2).bind fun r2 =>
    (parseStrBody (r2.length + 1) r2).bind fun vp =>
    (pairEnd vp.2).bind fun e =>
    if e.1 then
      (parsePairsF f e.2).map fun pr => ((kp.1, vp.1) :: pr.1, pr.2)
    else some ([(kp.1, vp.1)], e.2)

/-- Model of `json.Unmarshal` into `map[string]string`, restricted to the
whitespace-free documents `jsonMarshalMap` produces; the whole input must
be consumed. -/
def jsonUnmarshalMap (s : Str) : Option (List (Str × Str)) :=
  if s = emptyObjStr then some []
  else
    (expectOpenBrace s).bind fun rest =>
    (parsePairsF (rest.length + 1) rest).bind fun pr =>
    if pr.2 = [] then some pr.1 else none

/-- Model of `GetVariables` (identical on `NinjaBuild` and `NinjaRule`): an empty
or `{}` field is the empty map, anything else is unmarshalled (`none`
models the Go error return). -/
def getVariables (s : Str) : Option (List (Str × Str)) :=
  if s = [] || s = emptyObjStr then some []
  else jsonUnmarshalMap s

/-! ## The Ninja parser

`parser.ParseAndLoad` walks the physical lines, joins `$` continuations,
and maintains a current-rule / current-build context that is flushed to
the store when the next top-level construct (or the end of input) is
reached.  The model separates the pure pass — which produces the sequence
of store writes (`POp`) or the first parse error — from applying those
writes; the Go code interleaves the two, but no parsing decision reads
the store, and the write operations themselves never fail in the store
model, so the result store (on success) and the reported error (on
failure) coincide.  On failure Go leaves the writes made so far in the
store (spec §9, "parse-time partial writes"); the error result here
carries no store, and no claim below concerns that partial state. -/

/-- Model of `parser.ParsedBuild`.  The `Variables` Go map is an association list
with overwrite semantics; its iteration order is irrelevant because it is
only ever serialized through the sorting `setVariables`. -/
structure PBuild where
  rule : Str
  outputs : List Str
  inputs : List Str
  implicitDeps : List Str
  orderDeps : List Str
  vars : List (Str × Str)
  pool : Str
deriving DecidableEq, Repr

/-- The two parse-failure shapes of `ParseAndLoad` / `saveBuild`:
`rule %s is missing required command` and
`build must have at least one output`. -/
inductive PErr where
  | missingCommand (ruleName : Str)
  | emptyOutputs
deriving DecidableEq, Repr

/-- One store write emitted by the parser. -/
inductive POp where
  | pRule (r : NinjaRule)
  | pBuild (b : NinjaBuild) (inputs outputs implicitDeps orderDeps : List Str)
deriving DecidableEq, Repr

/-- Go map write `m[k] = v`. -/
def mapSet (m : List (Str × Str)) (k v : Str) : List (Str × Str) :=
  if m.any (fun e => e.1 == k) then
    m.map fun e => if e.1 == k then (k, v) else e
  else m ++ [(k, v)]

/-- Model of `parser.parseFilePaths`: empty-trimmed input gives nothing; otherwise
the input is split into fields (on whitespace), then `\ ` is replaced by
a space inside each field, and non-empty results are kept. -/
def parseFilePaths (input : Str) : List Str :=
  if goTrim input = [] then []
  else
    (goFields input).filterMap fun part =>
      let part' := goReplaceAll ['\\', ' '] [' '] part
      if part' = [] then none else some part'

/-- Model of `parser.saveBuild`: rejects a build without outputs, otherwise stamps
the comma-joined outputs as the build id, the `rule:<name>` identity, the
serialized variables and the pool, and emits the `AddBuild` write. -/
def saveBuild (pb : PBuild) : Except PErr POp :=
  if pb.outputs.length = 0 then .error .emptyOutputs
  else
    let buildID := List.intercalate [','] pb.outputs
    .ok (.pBuild
      ⟨buildID, .ruleId pb.rule, setVariables pb.vars, pb.pool⟩
      pb.inputs pb.outputs pb.implicitDeps pb.orderDeps)

/-- Flushing the current rule (each flush site of `ParseAndLoad` repeats
this snippet): a rule without a command fails the whole parse. -/
def flushRule : Option NinjaRule → Except PErr (List POp)
  | none => .ok []
  | some r =>
    if r.command = [] then .error (.missingCommand r.name) else .ok [.pRule r]

/-- Flushing the current build via `saveBuild`. -/
def flushBuild : Option PBuild → Except PErr (List POp)
  | none => .ok []
  | some pb => do
    let op ← saveBuild pb
    .ok [op]

/-- The line-continuation loop: while the (trimmed, already joined) line
ends in `$` and a physical line remains, drop the `$`, append one space
and the trimmed next line.  Also returns the last physical line consumed
(the `lines[i]` the indentation check later inspects) and the unconsumed
lines. -/
def joinCont : Str → String → List String → Str × String × List String
  | line, lastRaw, [] => (line, lastRaw, [])
  | line, lastRaw, next :: rest =>
    if goEnds ['$'] line then
      joinCont (line.dropLast ++ ' ' :: goTrim next.data) next rest
    else (line, lastRaw, next :: rest)

/-- An indented `key = value` line inside a rule: `command` and
`description` are fields, anything else round-trips through the rule's
serialized variables. -/
def ruleSetKV (r : NinjaRule) (key value : Str) : NinjaRule :=
  if key = "command".data then { r with command := value }
  else if key = "description".data then { r with description := value }
  else
    let vars0 := (getVariables r.vars).getD []
    { r with vars := setVariables (mapSet vars0 key value) }

/-- An indented `key = value` line inside a build: `pool` is a field,
anything else a build variable. -/
def buildSetKV (pb : PBuild) (key value : Str) : PBuild :=
  if key = "pool".data then { pb with pool := value }
  else { pb with vars := mapSet pb.vars key value }

/-- Parsing of the part of a `build` line after the keyword:
`outputs: rule inputs | implicit_deps || order_deps`.  Returns `none`
when the line has no `:` or names no rule — both cases `continue` in Go
without touching the (already flushed) contexts. -/
def parseBuildLine (buildLine : Str) : Option PBuild :=
  match splitFirst ':' buildLine with
  | none => none
  | some (lhs, rhs) =>
    let outputs := parseFilePaths lhs
    let rest0 := goTrim rhs
    match goFields rest0 with
    | [] => none
    | ruleName :: depParts =>
      if depParts = [] then
        some ⟨ruleName, outputs, [], [], [], [], "default".data⟩
      else
        let depString0 := List.intercalate [' '] depParts
        let orderParts := goSplit ['|', '|'] depString0
        let odeps :=
          if orderParts.length > 1 then
            parseFilePaths (goTrim (orderParts.getD 1 []))
          else []
        let depString1 :=
          if orderParts.length > 1 then goTrim (orderParts.getD 0 [])
          else depString0
        let implicitParts := goSplit ['|'] depString1
        let ideps :=
          if implicitParts.length > 1 then
            parseFilePaths (goTrim (implicitParts.getD 1 []))
          else []
        let depString2 :=
          if implicitParts.length > 1 then goTrim (implicitParts.getD 0 [])
          else depString1
        let inputs := if depString2 ≠ [] then parseFilePaths depString2 else []
        some ⟨ruleName, outputs, inputs, ideps, odeps, [], "default".data⟩

/-- The main loop of `ParseAndLoad` over the physical lines.  Fuelled by
the number of loop iterations (at most the number of lines); the
end-of-input flush is independent of fuel.  Mirrors the Go dispatch
order: blank/comment skip, continuation joining, `rule`, `build`,
`pool`/`variable`, then the indentation check against the last physical
line consumed.  Note that a skipped `build` line (no `:` or no rule)
leaves the previous — already saved — build as the current one, exactly
as the Go code does. -/
def parseLinesF : Nat → List String → Option NinjaRule → Option PBuild →
    List POp → Except PErr (List POp)
  | _, [], cr, cb, acc => do
    let rops ← flushRule cr
    let bops ← flushBuild cb
    .ok (acc ++ rops ++ bops)
  | 0, _ :: _, _, _, acc => .ok acc
  | f + 1, raw :: rest, cr, cb, acc =>
    let line := goTrim raw.data
    if line = [] || goStarts ['#'] line then parseLinesF f rest cr cb acc
    else
      let j := joinCont line raw rest
      let jline := j.1
      let lastRaw := j.2.1
      let rest' := j.2.2
      if goStarts "rule ".data jline then do
        let rops ← flushRule cr
        let ruleName := goTrim (jline.drop 5)
        parseLinesF f rest' (some ⟨ruleName, [], [], emptyObjStr⟩) cb
          (acc ++ rops)
      else if goStarts "build ".data jline then do
        let rops ← flushRule cr
        let bops ← flushBuild cb
        let buildLine := goTrim (jline.drop 6)
        match parseBuildLine buildLine with
        | none => parseLinesF f rest' none cb (acc ++ rops ++ bops)
        | some pb => parseLinesF f rest' none (some pb) (acc ++ rops ++ bops)
      else if goStarts "pool ".data jline
          || goStarts "variable ".data jline then do
        let rops ← flushRule cr
        let bops ← flushBuild cb
        parseLinesF f rest' none none (acc ++ rops ++ bops)
      else if goStarts "  ".data lastRaw.data
          || goStarts "\t".data lastRaw.data then
        match cr with
        | some r =>
          (match splitFirst '=' jline with
           | none => parseLinesF f rest' cr cb acc
           | some (k, v) =>
             parseLinesF f rest' (some (ruleSetKV r (goTrim k) (goTrim v))) cb
               acc)
        | none =>
          match cb with
          | some pb =>
            (match splitFirst '=' jline with
             | none => parseLinesF f rest' cr cb acc
             | some (k, v) =>
               parseLinesF f rest' cr
                 (some (buildSetKV pb (goTrim k) (goTrim v))) acc)
          | none => parseLinesF f rest' cr cb acc
      else parseLinesF f rest' cr cb acc

/-- Newline split, accumulator pass (structural, so that concrete parses
reduce inside the kernel). -/
def splitLinesChars : Str → Str → List Str
  | [], cur => [cur.reverse]
  | c :: rest, cur =>
    if c = '\n' then cur.reverse :: splitLinesChars rest []
    else splitLinesChars rest (c :: cur)

/-- Go `strings.Split(content, "\n")`. -/
def splitLinesGo (s : String) : List String :=
  (splitLinesChars s.data []).map fun l => ⟨l⟩

/-- The pure pass of `ParseAndLoad`: the sequence of store writes, or the
first parse error. -/
def parsePlan (content : String) : Except PErr (List POp) :=
  let lines := splitLinesGo content
  parseLinesF (lines.length + 1) lines none none []

/-- One parser-emitted store write. -/
def applyOp (S : Store) : POp → Store
  | .pRule r => addRule S r
  | .pBuild b i o d od => addBuild S b i o d od

/-- Model of `ParseAndLoad` against a store. -/
def parseAndLoad (S : Store) (content : String) : Except PErr Store :=
  (parsePlan content).map fun ops => ops.foldl applyOp S

/-! ## Store lemmas -/

theorem mem_insertQuad {S : Store} {q p : Quad} :
    p ∈ insertQuad S q ↔ p ∈ S ∨ p = q := by
  unfold insertQuad
  split
  · rename_i hq
    constructor
    · exact fun h => Or.inl h
    · rintro (h | rfl)
      · exact h
      · exact hq
  · simp [List.mem_append]

theorem mem_insertQuads {qs : List Quad} {S : Store} {p : Quad} :
    p ∈ insertQuads S qs ↔ p ∈ S ∨ p ∈ qs := by
  induction qs generalizing S with
  | nil => simp [insertQuads]
  | cons q qs ih =>
    have hstep : insertQuads S (q :: qs) = insertQuads (insertQuad S q) qs := rfl
    rw [hstep, ih]
    rw [mem_insertQuad]
    simp [or_assoc]

theorem insertQuads_of_subset {qs : List Quad} {S : Store}
    (h : ∀ q ∈ qs, q ∈ S) : insertQuads S qs = S := by
  induction qs generalizing S with
  | nil => rfl
  | cons q qs ih =>
    have hstep : insertQuads S (q :: qs) = insertQuads (insertQuad S q) qs := rfl
    have hq : insertQuad S q = S := by
      unfold insertQuad
      rw [if_pos (h q (by simp))]
    rw [hstep, hq]
    exact ih fun p hp => h p (by simp [hp])

theorem insertQuads_idem (S : Store) (qs : List Quad) :
    insertQuads (insertQuads S qs) qs = insertQuads S qs :=
  insertQuads_of_subset fun _ hq => mem_insertQuads.mpr (Or.inr hq)

theorem insertQuads_append (S : Store) (A B : List Quad) :
    insertQuads S (A ++ B) = insertQuads (insertQuads S A) B :=
  List.foldl_append ..

/-- The quads one parser-emitted write inserts. -/
def opQuads : POp → List Quad
  | .pRule r => ruleQuads r
  | .pBuild b i o d od => addBuildQuads b i o d od

theorem applyOp_eq_insertQuads (S : Store) (op : POp) :
    applyOp S op = insertQuads S (opQuads op) := by
  cases op <;> rfl

theorem foldl_applyOp_eq (ops : List POp) (S : Store) :
    ops.foldl applyOp S = insertQuads S (ops.flatMap opQuads) := by
  induction ops generalizing S with
  | nil => rfl
  | cons op ops ih =>
    simp only [List.foldl_cons, List.flatMap_cons, insertQuads_append,
      applyOp_eq_insertQuads, ih]

/-! ## Claims C2 and C7 -/

theorem dependsOn_mem_addBuildQuads {b : NinjaBuild}
    {inputs outputs implicitDeps orderDeps : List Str} {t : NIri} {f : QObj} :
    (⟨t, .rel "depends_on", f⟩ : Quad) ∈
        addBuildQuads b inputs outputs implicitDeps orderDeps ↔
      ∃ o ∈ outputs, ∃ d, (d ∈ inputs ∨ d ∈ implicitDeps) ∧
        t = NIri.targetId o ∧ f = QObj.node (.fileId d) := by
  simp +decide [addBuildQuads, addBuildRelQuads, buildQuads, targetQuads,
    fileQuads, Quad.mk.injEq, eq_comm]
  constructor
  · rintro (⟨d, hd, o, ho, ht, hf⟩ | ⟨d, hd, o, ho, ht, hf⟩)
    · exact ⟨o, ho, d, Or.inl hd, ht, hf⟩
    · exact ⟨o, ho, d, Or.inr hd, ht, hf⟩
  · rintro ⟨o, ho, d, hd | hd, ht, hf⟩
    · exact Or.inl ⟨d, hd, o, ho, ht, hf⟩
    · exact Or.inr ⟨d, hd, o, ho, ht, hf⟩

theorem orderDep_mem_addBuildQuads {b : NinjaBuild}
    {inputs outputs implicitDeps orderDeps : List Str} {od : Str}
    (hod : od ∈ orderDeps) :
    (⟨.buildId b.buildID, .rel "has_order_dep", .node (.fileId od)⟩ : Quad) ∈
      addBuildQuads b inputs outputs implicitDeps orderDeps := by
  simp +decide [addBuildQuads, addBuildRelQuads, buildQuads, targetQuads,
    fileQuads, Quad.mk.injEq]
  exact hod

/-- C2: after every `add_build(build, inputs, outputs, implicit_deps,
order_deps)` call, a `depends_on` quad is in the store iff it was there
before or goes from one of the call's output targets to one of its input
or implicit-dep files; in particular every output gains a `depends_on`
edge to every input and every implicit dep, every order-only dep is
recorded as a `has_order_dep` edge of the build, and no output gains a
`depends_on` edge to an order-only dep (that is not also listed as an
input or implicit dep). -/
theorem addBuild_dependsOn_characterization (S : Store) (b : NinjaBuild)
    (inputs outputs implicitDeps orderDeps : List Str) :
    (∀ t f, (⟨t, .rel "depends_on", f⟩ : Quad) ∈
          addBuild S b inputs outputs implicitDeps orderDeps
        ↔ ((⟨t, .rel "depends_on", f⟩ : Quad) ∈ S ∨
           ∃ o ∈ outputs, ∃ d, (d ∈ inputs ∨ d ∈ implicitDeps) ∧
             t = NIri.targetId o ∧ f = QObj.node (.fileId d)))
    ∧ (∀ o ∈ outputs, ∀ d, (d ∈ inputs ∨ d ∈ implicitDeps) →
        (⟨.targetId o, .rel "depends_on", .node (.fileId d)⟩ : Quad) ∈
          addBuild S b inputs outputs implicitDeps orderDeps)
    ∧ (∀ od ∈ orderDeps,
        (⟨.buildId b.buildID, .rel "has_order_dep", .node (.fileId od)⟩ : Quad) ∈
          addBuild S b inputs outputs implicitDeps orderDeps)
    ∧ (∀ o ∈ outputs, ∀ od ∈ orderDeps, od ∉ inputs → od ∉ implicitDeps →
        (⟨.targetId o, .rel "depends_on", .node (.fileId od)⟩ : Quad) ∉ S →
        (⟨.targetId o, .rel "depends_on", .node (.fileId od)⟩ : Quad) ∉
          addBuild S b inputs outputs implicitDeps orderDeps) := by
  have hchar : ∀ t f, (⟨t, .rel "depends_on", f⟩ : Quad) ∈
          addBuild S b inputs outputs implicitDeps orderDeps
        ↔ ((⟨t, .rel "depends_on", f⟩ : Quad) ∈ S ∨
           ∃ o ∈ outputs, ∃ d, (d ∈ inputs ∨ d ∈ implicitDeps) ∧
             t = NIri.targetId o ∧ f = QObj.node (.fileId d)) := by
    intro t f
    rw [show addBuild S b inputs outputs implicitDeps orderDeps =
      insertQuads S (addBuildQuads b inputs outputs implicitDeps orderDeps)
      from rfl]
    rw [mem_insertQuads, dependsOn_mem_addBuildQuads]
  refine ⟨hchar, ?_, ?_, ?_⟩
  · intro o ho d hd
    exact (hchar _ _).mpr (Or.inr ⟨o, ho, d, hd, rfl, rfl⟩)
  · intro od hod
    exact mem_insertQuads.mpr (Or.inr (orderDep_mem_addBuildQuads hod))
  · intro o ho od hod hni hnd hnS hmem
    rcases (hchar _ _).mp hmem with h | ⟨o', _, d, hd, ht, hf⟩
    · exact hnS h
    · cases hf
      rcases hd with hd | hd
      · exact hni hd
      · exact hnd hd

/-- C7: `add_rule(r)` twice and `add_build(b, …)` twice yield exactly the
store of a single call, and a successful `ParseAndLoad` of some content
run again on its own result store leaves that store unchanged. -/
theorem addRule_addBuild_load_idempotent :
    (∀ S r, addRule (addRule S r) r = addRule S r)
    ∧ (∀ S b inputs outputs implicitDeps orderDeps,
        addBuild (addBuild S b inputs outputs implicitDeps orderDeps)
            b inputs outputs implicitDeps orderDeps
          = addBuild S b inputs outputs implicitDeps orderDeps)
    ∧ (∀ S S' content, parseAndLoad S content = .ok S' →
        parseAndLoad S' content = .ok S') := by
  refine ⟨fun S r => insertQuads_idem S _,
    fun S b i o d od => insertQuads_idem S _, ?_⟩
  intro S S' content h
  unfold parseAndLoad at h ⊢
  cases hp : parsePlan content with
  | error e => rw [hp] at h; exact absurd h (by simp [Except.map])
  | ok ops =>
    rw [hp] at h
    simp only [Except.map, Except.ok.injEq] at h ⊢
    rw [foldl_applyOp_eq] at h ⊢
    rw [← h, insertQuads_idem]

/-! ## Claim C3: lemmas about the quads one `AddBuild` writes -/

theorem mem_addBuild_empty {q : Quad} {b : NinjaBuild}
    {inputs outputs implicitDeps orderDeps : List Str} :
    q ∈ addBuild [] b inputs outputs implicitDeps orderDeps ↔
      q ∈ addBuildQuads b inputs outputs implicitDeps orderDeps := by
  rw [show addBuild [] b inputs outputs implicitDeps orderDeps =
    insertQuads [] (addBuildQuads b inputs outputs implicitDeps orderDeps)
    from rfl, mem_insertQuads]
  simp

theorem mem_addBuildQuads_iff {q : Quad} {b : NinjaBuild}
    {inputs outputs implicitDeps orderDeps : List Str} :
    q ∈ addBuildQuads b inputs outputs implicitDeps orderDeps ↔
      q ∈ buildQuads b
      ∨ (∃ o ∈ outputs,
          q ∈ targetQuads ⟨o, "clean".data, "none".data, .buildId b.buildID⟩)
      ∨ (∃ i ∈ inputs, q ∈ fileQuads ⟨i, inferFileType i⟩)
      ∨ (∃ d ∈ implicitDeps, q ∈ fileQuads ⟨d, inferFileType d⟩)
      ∨ (∃ o ∈ outputs,
          q = ⟨.buildId b.buildID, .rel "has_output", .node (.targetId o)⟩)
      ∨ (∃ i ∈ inputs,
          q = ⟨.buildId b.buildID, .rel "has_input", .node (.fileId i)⟩
          ∨ ∃ o ∈ outputs,
              q = ⟨.targetId o, .rel "depends_on", .node (.fileId i)⟩)
      ∨ (∃ d ∈ implicitDeps,
          q = ⟨.buildId b.buildID, .rel "has_implicit_dep", .node (.fileId d)⟩
          ∨ ∃ o ∈ outputs,
              q = ⟨.targetId o, .rel "depends_on", .node (.fileId d)⟩)
      ∨ (∃ od ∈ orderDeps,
          q = ⟨.buildId b.buildID, .rel "has_order_dep", .node (.fileId od)⟩) := by
  simp [addBuildQuads, addBuildRelQuads, or_assoc, eq_comm]

/-- Every written quad whose subject is `target:<out>` is a record quad of
that output's target or a `depends_on` edge. -/
theorem target_subject_classify {q : Quad} {b : NinjaBuild}
    {inputs outputs implicitDeps orderDeps : List Str} {out : Str}
    (hq : q ∈ addBuildQuads b inputs outputs implicitDeps orderDeps)
    (hsub : q.sub = NIri.targetId out) :
    q ∈ targetQuads ⟨out, "clean".data, "none".data, .buildId b.buildID⟩
    ∨ q.prd = .rel "depends_on" := by
  rw [mem_addBuildQuads_iff] at hq
  rcases hq with hq | ⟨o, ho, hq⟩ | ⟨i, hi, hq⟩ | ⟨d, hd, hq⟩ | ⟨o, ho, rfl⟩
    | ⟨i, hi, rfl | ⟨o, ho, rfl⟩⟩ | ⟨d, hd, rfl | ⟨o, ho, rfl⟩⟩ | ⟨od, hod, rfl⟩
  · simp [buildQuads] at hq
    rcases hq with rfl | rfl | rfl | rfl | rfl <;> simp_all
  · simp [targetQuads] at hq
    rcases hq with rfl | rfl | rfl | rfl | rfl <;> simp_all [targetQuads]
  · simp [fileQuads] at hq
    rcases hq with rfl | rfl | rfl <;> simp_all
  · simp [fileQuads] at hq
    rcases hq with rfl | rfl | rfl <;> simp_all
  · simp_all
  · simp_all
  · simp
  · simp_all
  · simp
  · simp_all

/-- Every written quad whose subject is the build identity is a build
record quad or one of the four build-rooted relationship edges. -/
theorem build_subject_classify {q : Quad} {b : NinjaBuild}
    {inputs outputs implicitDeps orderDeps : List Str}
    (hq : q ∈ addBuildQuads b inputs outputs implicitDeps orderDeps)
    (hsub : q.sub = NIri.buildId b.buildID) :
    q ∈ buildQuads b
    ∨ q.prd = .rel "has_output" ∨ q.prd = .rel "has_input"
    ∨ q.prd = .rel "has_implicit_dep" ∨ q.prd = .rel "has_order_dep" := by
  rw [mem_addBuildQuads_iff] at hq
  rcases hq with hq | ⟨o, ho, hq⟩ | ⟨i, hi, hq⟩ | ⟨d, hd, hq⟩ | ⟨o, ho, rfl⟩
    | ⟨i, hi, rfl | ⟨o, ho, rfl⟩⟩ | ⟨d, hd, rfl | ⟨o, ho, rfl⟩⟩ | ⟨od, hod, rfl⟩
  · exact Or.inl hq
  · simp [targetQuads] at hq
    rcases hq with rfl | rfl | rfl | rfl | rfl <;> simp_all
  · simp [fileQuads] at hq
    rcases hq with rfl | rfl | rfl <;> simp_all
  · simp [fileQuads] at hq
    rcases hq with rfl | rfl | rfl <;> simp_all
  · simp
  · simp
  · simp_all
  · simp
  · simp_all
  · simp

/-- Every written quad whose subject is `file:<p>` is a record quad of
the file record with `p`'s inferred type. -/
theorem file_subject_classify {q : Quad} {b : NinjaBuild}
    {inputs outputs implicitDeps orderDeps : List Str} {p : Str}
    (hq : q ∈ addBuildQuads b inputs outputs implicitDeps orderDeps)
    (hsub : q.sub = NIri.fileId p) :
    q ∈ fileQuads ⟨p, inferFileType p⟩ := by
  rw [mem_addBuildQuads_iff] at hq
  rcases hq with hq | ⟨o, ho, hq⟩ | ⟨i, hi, hq⟩ | ⟨d, hd, hq⟩ | ⟨o, ho, rfl⟩
    | ⟨i, hi, rfl | ⟨o, ho, rfl⟩⟩ | ⟨d, hd, rfl | ⟨o, ho, rfl⟩⟩ | ⟨od, hod, rfl⟩
  · simp [buildQuads] at hq
    rcases hq with rfl | rfl | rfl | rfl | rfl <;> simp_all
  · simp [targetQuads] at hq
    rcases hq with rfl | rfl | rfl | rfl | rfl <;> simp_all
  · simp [fileQuads] at hq
    rcases hq with rfl | rfl | rfl <;> simp_all [fileQuads]
  · simp [fileQuads] at hq
    rcases hq with rfl | rfl | rfl <;> simp_all [fileQuads]
  · simp_all
  · simp_all
  · simp_all
  · simp_all
  · simp_all
  · simp_all

theorem find?_obj_eq {P : Quad → Bool} {v : QObj} :
    ∀ {S : Store}, (∃ q ∈ S, P q = true) →
      (∀ q ∈ S, P q = true → q.obj = v) →
      (S.find? P).map (·.obj) = some v := by
  intro S
  induction S with
  | nil => rintro ⟨q, hq, _⟩ _; simp at hq
  | cons a S ih =>
    intro hex huniq
    by_cases hPa : P a
    · rw [List.find?_cons_of_pos _ hPa]
      simp [huniq a (by simp) hPa]
    · rw [List.find?_cons_of_neg _ hPa]
      apply ih
      · rcases hex with ⟨q, hq, hP⟩
        rcases List.mem_cons.mp hq with rfl | hq'
        · exact absurd hP (by simp [hPa])
        · exact ⟨q, hq', hP⟩
      · exact fun q hq hP => huniq q (List.mem_cons.mpr (Or.inr hq)) hP

/-- Field lookup on the store written by a single `AddBuild`, for a
subject that is one of its output targets. -/
theorem findFld_addBuild_target (b : NinjaBuild)
    (inputs outputs implicitDeps orderDeps : List Str) {out : Str}
    (hout : out ∈ outputs) (f : String) (v : QObj)
    (hv : (⟨.targetId out, .fld f, v⟩ : Quad) ∈
      targetQuads ⟨out, "clean".data, "none".data, .buildId b.buildID⟩)
    (huniq : ∀ q ∈
        targetQuads ⟨out, "clean".data, "none".data, .buildId b.buildID⟩,
      q.prd = .fld f → q.obj = v) :
    findFld (addBuild [] b inputs outputs implicitDeps orderDeps)
        (.targetId out) f = some v := by
  unfold findFld
  apply find?_obj_eq
  · refine ⟨_, mem_addBuild_empty.mpr
      (mem_addBuildQuads_iff.mpr (Or.inr (Or.inl ⟨out, hout, hv⟩))), ?_⟩
    simp
  · intro q hq hP
    simp only [Bool.and_eq_true, beq_iff_eq] at hP
    obtain ⟨h1, h2⟩ := hP
    rcases target_subject_classify (mem_addBuild_empty.mp hq) h1 with hcl | hcl
    · exact huniq q hcl h2
    · rw [h2] at hcl; cases hcl

/-- Field lookup for the build subject. -/
theorem findFld_addBuild_build (b : NinjaBuild)
    (inputs outputs implicitDeps orderDeps : List Str) (f : String) (v : QObj)
    (hv : (⟨.buildId b.buildID, .fld f, v⟩ : Quad) ∈ buildQuads b)
    (huniq : ∀ q ∈ buildQuads b, q.prd = .fld f → q.obj = v) :
    findFld (addBuild [] b inputs outputs implicitDeps orderDeps)
        (.buildId b.buildID) f = some v := by
  unfold findFld
  apply find?_obj_eq
  · refine ⟨_, mem_addBuild_empty.mpr
      (mem_addBuildQuads_iff.mpr (Or.inl hv)), ?_⟩
    simp
  · intro q hq hP
    simp only [Bool.and_eq_true, beq_iff_eq] at hP
    obtain ⟨h1, h2⟩ := hP
    rcases build_subject_classify (mem_addBuild_empty.mp hq) h1 with
      hcl | hcl | hcl | hcl | hcl
    · exact huniq q hcl h2
    all_goals rw [h2] at hcl; cases hcl

/-- Field lookup for a file subject written as an input or implicit dep. -/
theorem findFld_addBuild_file (b : NinjaBuild)
    (inputs outputs implicitDeps orderDeps : List Str) {p : Str}
    (hp : p ∈ inputs ∨ p ∈ implicitDeps) (f : String) (v : QObj)
    (hv : (⟨.fileId p, .fld f, v⟩ : Quad) ∈ fileQuads ⟨p, inferFileType p⟩)
    (huniq : ∀ q ∈ fileQuads ⟨p, inferFileType p⟩, q.prd = .fld f → q.obj = v) :
    findFld (addBuild [] b inputs outputs implicitDeps orderDeps)
        (.fileId p) f = some v := by
  unfold findFld
  have hm : (⟨.fileId p, .fld f, v⟩ : Quad) ∈
      addBuild [] b inputs outputs implicitDeps orderDeps := by
    refine mem_addBuild_empty.mpr (mem_addBuildQuads_iff.mpr ?_)
    rcases hp with hp | hp
    · exact Or.inr (Or.inr (Or.inl ⟨p, hp, hv⟩))
    · exact Or.inr (Or.inr (Or.inr (Or.inl ⟨p, hp, hv⟩)))
  apply find?_obj_eq
  · exact ⟨_, hm, by simp⟩
  · intro q hq hP
    simp only [Bool.and_eq_true, beq_iff_eq] at hP
    obtain ⟨h1, h2⟩ := hP
    exact huniq q (file_subject_classify (mem_addBuild_empty.mp hq) h1) h2

theorem loadTargetIri_addBuild (b : NinjaBuild)
    (inputs outputs implicitDeps orderDeps : List Str) {out : Str}
    (hout : out ∈ outputs) :
    loadTargetIri (addBuild [] b inputs outputs implicitDeps orderDeps)
        (.targetId out)
      = some ⟨out, "clean".data, "none".data, .buildId b.buildID⟩ := by
  have hty : (⟨.targetId out, .fld "rdf:type", .node .tyTarget⟩ : Quad) ∈
      addBuild [] b inputs outputs implicitDeps orderDeps :=
    mem_addBuild_empty.mpr (mem_addBuildQuads_iff.mpr
      (Or.inr (Or.inl ⟨out, hout, by simp [targetQuads]⟩)))
  have hpath := findFld_addBuild_target b inputs outputs implicitDeps orderDeps
    hout "path" (.lit out) (by simp [targetQuads])
    (by intro q hq hprd
        simp only [targetQuads, List.mem_cons, List.not_mem_nil, or_false] at hq
        rcases hq with rfl | rfl | rfl | rfl | rfl <;> simp_all +decide)
  have hst := findFld_addBuild_target b inputs outputs implicitDeps orderDeps
    hout "status" (.lit "clean".data) (by simp [targetQuads])
    (by intro q hq hprd
        simp only [targetQuads, List.mem_cons, List.not_mem_nil, or_false] at hq
        rcases hq with rfl | rfl | rfl | rfl | rfl <;> simp_all +decide)
  have hh := findFld_addBuild_target b inputs outputs implicitDeps orderDeps
    hout "hash" (.lit "none".data) (by simp [targetQuads])
    (by intro q hq hprd
        simp only [targetQuads, List.mem_cons, List.not_mem_nil, or_false] at hq
        rcases hq with rfl | rfl | rfl | rfl | rfl <;> simp_all +decide)
  have hb := findFld_addBuild_target b inputs outputs implicitDeps orderDeps
    hout "build" (.node (.buildId b.buildID)) (by simp [targetQuads])
    (by intro q hq hprd
        simp only [targetQuads, List.mem_cons, List.not_mem_nil, or_false] at hq
        rcases hq with rfl | rfl | rfl | rfl | rfl <;> simp_all +decide)
  unfold loadTargetIri
  rw [if_pos hty, hpath, hst, hh, hb]
  rfl

theorem loadBuild_addBuild (b : NinjaBuild)
    (inputs outputs implicitDeps orderDeps : List Str) :
    loadBuild (addBuild [] b inputs outputs implicitDeps orderDeps)
        (.buildId b.buildID) = some b := by
  have hty : (⟨.buildId b.buildID, .fld "rdf:type", .node .tyBuild⟩ : Quad) ∈
      addBuild [] b inputs outputs implicitDeps orderDeps :=
    mem_addBuild_empty.mpr (mem_addBuildQuads_iff.mpr
      (Or.inl (by simp [buildQuads])))
  have hbid := findFld_addBuild_build b inputs outputs implicitDeps orderDeps
    "build_id" (.lit b.buildID) (by simp [buildQuads])
    (by intro q hq hprd
        simp only [buildQuads, List.mem_cons, List.not_mem_nil, or_false] at hq
        rcases hq with rfl | rfl | rfl | rfl | rfl <;> simp_all +decide)
  have hrl := findFld_addBuild_build b inputs outputs implicitDeps orderDeps
    "rule" (.node b.rule) (by simp [buildQuads])
    (by intro q hq hprd
        simp only [buildQuads, List.mem_cons, List.not_mem_nil, or_false] at hq
        rcases hq with rfl | rfl | rfl | rfl | rfl <;> simp_all +decide)
  have hv := findFld_addBuild_build b inputs outputs implicitDeps orderDeps
    "variables" (.lit b.vars) (by simp [buildQuads])
    (by intro q hq hprd
        simp only [buildQuads, List.mem_cons, List.not_mem_nil, or_false] at hq
        rcases hq with rfl | rfl | rfl | rfl | rfl <;> simp_all +decide)
  have hpl := findFld_addBuild_build b inputs outputs implicitDeps orderDeps
    "pool" (.lit b.pool) (by simp [buildQuads])
    (by intro q hq hprd
        simp only [buildQuads, List.mem_cons, List.not_mem_nil, or_false] at hq
        rcases hq with rfl | rfl | rfl | rfl | rfl <;> simp_all +decide)
  unfold loadBuild
  rw [if_pos hty, hbid, hrl, hv, hpl]
  rfl

theorem loadFile_addBuild (b : NinjaBuild)
    (inputs outputs implicitDeps orderDeps : List Str) {p : Str}
    (hp : p ∈ inputs ∨ p ∈ implicitDeps) :
    loadFile (addBuild [] b inputs outputs implicitDeps orderDeps)
        (.fileId p) = some ⟨p, inferFileType p⟩ := by
  have hrec : (⟨.fileId p, .fld "rdf:type", .node .tyFile⟩ : Quad) ∈
      fileQuads ⟨p, inferFileType p⟩ := by simp [fileQuads]
  have hty : (⟨.fileId p, .fld "rdf:type", .node .tyFile⟩ : Quad) ∈
      addBuild [] b inputs outputs implicitDeps orderDeps := by
    refine mem_addBuild_empty.mpr (mem_addBuildQuads_iff.mpr ?_)
    rcases hp with hp | hp
    · exact Or.inr (Or.inr (Or.inl ⟨p, hp, hrec⟩))
    · exact Or.inr (Or.inr (Or.inr (Or.inl ⟨p, hp, hrec⟩)))
  have hpath := findFld_addBuild_file b inputs outputs implicitDeps orderDeps
    hp "path" (.lit p) (by simp [fileQuads])
    (by intro q hq hprd
        simp only [fileQuads, List.mem_cons, List.not_mem_nil, or_false] at hq
        rcases hq with rfl | rfl | rfl <;> simp_all +decide)
  have hft := findFld_addBuild_file b inputs outputs implicitDeps orderDeps
    hp "file_type" (.lit (inferFileType p)) (by simp [fileQuads])
    (by intro q hq hprd
        simp only [fileQuads, List.mem_cons, List.not_mem_nil, or_false] at hq
        rcases hq with rfl | rfl | rfl <;> simp_all +decide)
  unfold loadFile
  rw [if_pos hty, hpath, hft]
  rfl

theorem filterMap_insertQuads_unique {β : Type} {g : Quad → Option β} :
    ∀ (qs : List Quad) (S : Store),
      (∀ q, (g q).isSome → q ∈ S → q ∉ qs) →
      (qs.filter fun q => (g q).isSome).Nodup →
      (insertQuads S qs).filterMap g = S.filterMap g ++ qs.filterMap g := by
  intro qs
  induction qs with
  | nil => intro S _ _; simp [insertQuads]
  | cons q qs ih =>
    intro S hmem hnd
    have hstep : insertQuads S (q :: qs) = insertQuads (insertQuad S q) qs := rfl
    rw [hstep]
    by_cases hg : (g q).isSome
    · have hqS : q ∉ S := fun hq => hmem q hg hq (by simp)
      have h1 : insertQuad S q = S ++ [q] := by
        unfold insertQuad; rw [if_neg hqS]
      have hfilter : List.filter (fun q => (g q).isSome) (q :: qs)
          = q :: qs.filter fun q => (g q).isSome := by
        simp [List.filter_cons, hg]
      rw [hfilter] at hnd
      have hnotin := (List.nodup_cons.mp hnd).1
      rw [h1, ih (S ++ [q]) ?hm (List.nodup_cons.mp hnd).2]
      · obtain ⟨v, hv⟩ := Option.isSome_iff_exists.mp hg
        simp [List.filterMap_append, List.filterMap_cons, hv]
      case hm =>
        intro q' hg' hq' hin
        rcases List.mem_append.mp hq' with h | h
        · exact hmem q' hg' h (by simp [hin])
        · simp only [List.mem_singleton] at h
          subst h
          exact hnotin (List.mem_filter.mpr ⟨hin, hg⟩)
    · have hgnone : g q = none := Option.not_isSome_iff_eq_none.mp hg
      have hfilter : List.filter (fun q => (g q).isSome) (q :: qs)
          = qs.filter fun q => (g q).isSome := by
        simp [List.filter_cons, hg]
      rw [hfilter] at hnd
      rw [ih (insertQuad S q) ?hm hnd]
      · have hL : (insertQuad S q).filterMap g = S.filterMap g := by
          unfold insertQuad
          split
          · rfl
          · simp [List.filterMap_append, hgnone]
        rw [hL]
        simp [List.filterMap_cons, hgnone]
      case hm =>
        intro q' hg' hq' hin
        have hq'S : q' ∈ S := by
          rcases mem_insertQuad.mp hq' with h | rfl
          · exact h
          · exact absurd hg' (by simp [hgnone])
        exact hmem q' hg' hq'S (by simp [hin])

theorem filter_sublist_of_imp {α : Type} {p q : α → Bool} (l : List α)
    (h : ∀ a ∈ l, p a → q a) : List.Sublist (l.filter p) (l.filter q) := by
  induction l with
  | nil => simp
  | cons a l ih =>
    have ih' := ih fun a ha => h a (by simp [ha])
    simp only [List.filter_cons]
    by_cases hpa : p a
    · rw [if_pos hpa, if_pos (h a (by simp) hpa)]
      exact ih'.cons₂ a
    · rw [if_neg hpa]
      by_cases hqa : q a
      · rw [if_pos hqa]
        exact ih'.cons a
      · rw [if_neg hqa]
        exact ih'

theorem filter_flatMap {α β : Type} (P : β → Bool) (l : List α)
    (f : α → List β) :
    (l.flatMap f).filter P = l.flatMap fun a => (f a).filter P := by
  induction l with
  | nil => rfl
  | cons a l ih => simp [List.flatMap_cons, List.filter_append, ih]

theorem filterMap_flatMap {α β γ : Type} (g : β → Option γ) (l : List α)
    (f : α → List β) :
    (l.flatMap f).filterMap g = l.flatMap fun a => (f a).filterMap g := by
  induction l with
  | nil => rfl
  | cons a l ih => simp [List.flatMap_cons, List.filterMap_append, ih]

theorem flatMap_congr_mem {α β : Type} {l : List α} {f g : α → List β}
    (h : ∀ a ∈ l, f a = g a) : l.flatMap f = l.flatMap g := by
  induction l with
  | nil => rfl
  | cons a l ih =>
    simp only [List.flatMap_cons, h a (by simp),
      ih fun a ha => h a (by simp [ha])]

theorem beq_targetId_buildId (a c : Str) :
    (NIri.targetId a == NIri.buildId c) = false := by
  simp [beq_eq_false_iff_ne]

theorem beq_fileId_buildId (a c : Str) :
    (NIri.fileId a == NIri.buildId c) = false := by
  simp [beq_eq_false_iff_ne]

theorem flatMap_const_nil {α β : Type} (l : List α) :
    (l.flatMap fun _ => ([] : List β)) = [] := by
  induction l <;> simp_all

theorem filterMap_const_none {α β : Type} (l : List α) :
    (l.filterMap fun _ => (none : Option β)) = [] := by
  induction l <;> simp_all

theorem flatMap_singleton_map {α β : Type} (l : List α) (f : α → β) :
    (l.flatMap fun a => [f a]) = l.map f := by
  induction l <;> simp_all

/-- The quads of one `AddBuild` whose subject is the build and whose
predicate is `has_input` or `has_implicit_dep` are exactly one quad per
distinct input and implicit dep, so for duplicate-free lists this
selection is duplicate-free. -/
theorem depsFilter_nodup {β : Type} (b : NinjaBuild)
    (inputs outputs implicitDeps orderDeps : List Str)
    (hni : inputs.Nodup) (hnd : implicitDeps.Nodup) {g : Quad → Option β}
    (hg : ∀ q, (g q).isSome →
      (q.sub == NIri.buildId b.buildID &&
        (q.prd == QPred.rel "has_input"
          || q.prd == QPred.rel "has_implicit_dep")) = true) :
    ((addBuildQuads b inputs outputs implicitDeps orderDeps).filter
      fun q => (g q).isSome).Nodup := by
  have hsub := filter_sublist_of_imp
    (q := fun q => q.sub == NIri.buildId b.buildID &&
      (q.prd == QPred.rel "has_input"
        || q.prd == QPred.rel "has_implicit_dep"))
    (addBuildQuads b inputs outputs implicitDeps orderDeps)
    (fun q _ h => hg q h)
  refine List.Nodup.sublist hsub ?_
  have hP2 : (addBuildQuads b inputs outputs implicitDeps orderDeps).filter
      (fun q => q.sub == NIri.buildId b.buildID &&
        (q.prd == QPred.rel "has_input"
          || q.prd == QPred.rel "has_implicit_dep"))
    = (inputs.map fun i =>
        (⟨.buildId b.buildID, .rel "has_input", .node (.fileId i)⟩ : Quad))
      ++ (implicitDeps.map fun d =>
        (⟨.buildId b.buildID, .rel "has_implicit_dep",
          .node (.fileId d)⟩ : Quad)) := by
    simp +decide [addBuildQuads, addBuildRelQuads, buildQuads, targetQuads,
      fileQuads, List.filter_append, filter_flatMap, List.filter_cons,
      List.filter_map, beq_targetId_buildId, beq_fileId_buildId,
      flatMap_const_nil, flatMap_singleton_map, Function.comp_def,
      (by decide : (QPred.rel "has_output" == QPred.rel "has_input") = false),
      (by decide : (QPred.rel "has_output" == QPred.rel "has_implicit_dep") = false),
      (by decide : (QPred.rel "has_order_dep" == QPred.rel "has_input") = false),
      (by decide : (QPred.rel "has_order_dep" == QPred.rel "has_implicit_dep") = false)]
  rw [hP2]
  refine List.Nodup.append ?_ ?_ ?_
  · exact hni.map fun a c h => by simpa using h
  · exact hnd.map fun a c h => by simpa using h
  · intro q hq1 hq2
    simp only [List.mem_map] at hq1 hq2
    obtain ⟨i, _, rfl⟩ := hq1
    obtain ⟨d, _, hq⟩ := hq2
    simp at hq

theorem filterMap_addBuild_empty {β : Type} {g : Quad → Option β}
    (b : NinjaBuild) (inputs outputs implicitDeps orderDeps : List Str)
    (hnodup : ((addBuildQuads b inputs outputs implicitDeps orderDeps).filter
      fun q => (g q).isSome).Nodup) :
    (addBuild [] b inputs outputs implicitDeps orderDeps).filterMap g
      = (addBuildQuads b inputs outputs implicitDeps orderDeps).filterMap g := by
  rw [show addBuild [] b inputs outputs implicitDeps orderDeps =
    insertQuads [] (addBuildQuads b inputs outputs implicitDeps orderDeps)
    from rfl]
  rw [filterMap_insertQuads_unique _ []
    (fun q _ h => absurd h (List.not_mem_nil q)) hnodup]
  simp

/-- C3 (amended): for a build stored by one `add_build` into an empty
store, with duplicate-free input and implicit-dep lists, the dependency
query of any of its outputs returns the files of the inputs followed by
the files of the implicit deps.  A path listed both as an input and as an
implicit dep therefore occurs twice: duplicates between the two lists are
NOT suppressed (only exact duplicate quads within one predicate reconcile
in the store). -/
theorem getBuildDependencies_addBuild (b : NinjaBuild)
    (inputs outputs implicitDeps orderDeps : List Str)
    (hni : inputs.Nodup) (hnd : implicitDeps.Nodup)
    {out : Str} (hout : out ∈ outputs) :
    getBuildDependencies (addBuild [] b inputs outputs implicitDeps orderDeps)
        out
      = some ((inputs ++ implicitDeps).map fun p =>
          ⟨p, inferFileType p⟩) := by
  unfold getBuildDependencies loadTarget
  rw [loadTargetIri_addBuild b inputs outputs implicitDeps orderDeps hout]
  simp only [Option.bind_eq_bind, Option.some_bind]
  rw [loadBuild_addBuild b inputs outputs implicitDeps orderDeps]
  simp only [Option.some_bind]
  rw [filterMap_addBuild_empty b inputs outputs implicitDeps orderDeps ?hnodup]
  case hnodup =>
    apply depsFilter_nodup b inputs outputs implicitDeps orderDeps hni hnd
    intro q hq
    split at hq
    · rename_i hc
      simp only [Bool.and_eq_true] at hc ⊢
      exact ⟨hc.1, by simp [hc.2]⟩
    · split at hq
      · rename_i hc
        simp only [Bool.and_eq_true] at hc ⊢
        exact ⟨hc.1, by simp [hc.2]⟩
      · simp at hq
  · simp only [addBuildQuads, addBuildRelQuads, List.filterMap_append,
      filterMap_flatMap, List.filterMap_cons, List.filterMap_map,
      Function.comp_def, buildQuads, targetQuads, fileQuads]
    simp +decide [beq_targetId_buildId, beq_fileId_buildId,
      filterMap_const_none, flatMap_const_nil,
      (by decide : (QPred.rel "has_output" == QPred.rel "has_input") = false),
      (by decide : (QPred.rel "has_output" == QPred.rel "has_implicit_dep") = false),
      (by decide : (QPred.rel "has_order_dep" == QPred.rel "has_input") = false),
      (by decide : (QPred.rel "has_order_dep" == QPred.rel "has_implicit_dep") = false)]
    congr 1
    · rw [← flatMap_singleton_map inputs
        (fun p => (⟨p, inferFileType p⟩ : NinjaFile))]
      apply flatMap_congr_mem
      intro i hi
      rw [loadFile_addBuild b inputs outputs implicitDeps orderDeps (Or.inl hi)]
    · rw [← flatMap_singleton_map implicitDeps
        (fun p => (⟨p, inferFileType p⟩ : NinjaFile))]
      apply flatMap_congr_mem
      intro d hd
      rw [loadFile_addBuild b inputs outputs implicitDeps orderDeps (Or.inr hd)]

/-- C3 (counterexample): one build with input `x.c`, implicit dep `x.c`
and output `out`: the dependency query returns the path `x.c` twice, so
duplicates across the input and implicit-dep lists are not suppressed. -/
theorem getBuildDependencies_duplicate_path :
    (getBuildDependencies
        (addBuild [] ⟨"out".data, .ruleId "cc".data, emptyObjStr, []⟩
          ["x.c".data] ["out".data] ["x.c".data] [])
        "out".data).map (List.map NinjaFile.path)
      = some ["x.c".data, "x.c".data]
    ∧ ¬ (["x.c".data, "x.c".data] : List Str).Nodup := by
  exact ⟨rfl, by decide⟩

/-! ## Claim C1: the cycle scenario -/

/-- The spec's §8 "Cycle" scenario: two builds `a: cc b` and `b: cc a`. -/
def cycleContent : String :=
  "rule cc\n  command = cc $in\nbuild a: cc b\nbuild b: cc a"

/-- The store after loading the cycle scenario into an empty store. -/
def cycleStore : Store :=
  match parseAndLoad [] cycleContent with
  | .ok S => S
  | .error _ => []

/-- C1: for the store holding the two builds `a: cc b` and `b: cc a`,
`GetBuildOrder` fails with the circular-dependency error, but
`FindCycles` returns NO cycle at all (not one cycle with nodes `{a, b}`):
its DFS only recurses into dependencies whose path is already a key of
the `visited` map, so it can never walk a cycle of length greater than
one, and "get_build_order succeeds iff find_cycles returns the empty
list" fails on this store. -/
theorem findCycles_misses_two_node_cycle :
    (parseAndLoad [] cycleContent).isOk = true
    ∧ (getAllTargets cycleStore).map NinjaTarget.path = ["a".data, "b".data]
    ∧ findCycles cycleStore = some []
    ∧ getBuildOrder cycleStore
        = .error "circular dependency detected in build graph" := by
  refine ⟨by decide, by decide, by decide, by rfl⟩

/-! ## Claim C8: status update of a missing target -/

/-- C8: `UpdateTargetStatus` performs no existence check: on a store with
no target at all (so the target load fails), updating the status of the
missing path succeeds and adds a `status` and a `last_modified` quad for
the nonexistent target — the store is changed, not left unchanged, and no
`NotFound` error is reported on the store/HTTP path (only the gRPC
handler checks first). -/
theorem updateTargetStatus_no_existence_check :
    loadTarget ([] : Store) "missing".data = none
    ∧ httpUpdateTargetStatusHandler [] "missing".data "dirty".data 7
        = [⟨.targetId "missing".data, .fld "status", .lit "dirty".data⟩,
           ⟨.targetId "missing".data, .fld "last_modified", .time 7⟩]
    ∧ httpUpdateTargetStatusHandler [] "missing".data "dirty".data 7
        ≠ ([] : Store)
    ∧ grpcUpdateTargetStatus [] "missing".data "dirty".data 7
        = .error "target not found" := by
  refine ⟨rfl, rfl, by decide, rfl⟩

/-! ## Claim C9: file-type inference -/

/-- The extension table exactly as the specification lists it:
`source` (`c|cc|cpp|cxx`), `header` (`h|hpp|hxx`), `object` (`o|obj`),
`library` (`a|lib`), `executable` (empty or `exe`), else `unknown`. -/
def extTable (ext : Str) : Str :=
  if ext = "c".data || ext = "cc".data || ext = "cpp".data
      || ext = "cxx".data then "source".data
  else if ext = "h".data || ext = "hpp".data || ext = "hxx".data then
    "header".data
  else if ext = "o".data || ext = "obj".data then "object".data
  else if ext = "a".data || ext = "lib".data then "library".data
  else if ext = [] || ext = "exe".data then "executable".data
  else "unknown".data

/-- The file-type mapping as claim C9 states it: look up the last dotted
extension in the table, and treat a path with no dot as having the empty
extension (hence `executable`). -/
def claimFileType (p : Str) : Str :=
  if '.' ∈ p then extTable (goToLower (extAfterLastDot p))
  else "executable".data

/-- C9 (counterexample): the code does not map a dotless path to
`executable`: `strings.LastIndex(path, ".")` is `-1`, the slice
`path[0:]` is the whole path, and `inferFileType "main"` is `"unknown"`
where the claim requires `"executable"`. -/
theorem inferFileType_dotless_not_executable :
    inferFileType "main".data = "unknown".data
    ∧ claimFileType "main".data = "executable".data
    ∧ inferFileType "main".data ≠ claimFileType "main".data := by
  refine ⟨by decide, by decide, by decide⟩

theorem takeWhile_all {α : Type} (P : α → Bool) :
    ∀ l : List α, (∀ a ∈ l, P a) → l.takeWhile P = l := by
  intro l
  induction l with
  | nil => intro _; rfl
  | cons a l ih =>
    intro h
    simp [List.takeWhile_cons, h a (by simp),
      ih fun a ha => h a (by simp [ha])]

theorem extAfterLastDot_of_no_dot {p : Str} (h : '.' ∉ p) :
    extAfterLastDot p = p := by
  unfold extAfterLastDot
  rw [takeWhile_all _ p.reverse fun c hc => by
    simp only [decide_eq_true_eq]
    intro hcdot
    exact h (by simpa [hcdot] using List.mem_reverse.mp hc)]
  exact List.reverse_reverse p

/-- C9 (amended): `inferFileType` looks the lower-cased extension up in
exactly the claimed table, where the extension is the suffix after the
last dot when the path contains a dot, and the WHOLE path when it does
not (instead of the claimed empty extension): a dotless path is
`executable` only if it is literally `exe` or empty. -/
theorem inferFileType_amended :
    (∀ p : Str, inferFileType p = extTable (goToLower (extAfterLastDot p)))
    ∧ (∀ p : Str, '.' ∉ p → inferFileType p = extTable (goToLower p)) := by
  have h1 : ∀ p : Str,
      inferFileType p = extTable (goToLower (extAfterLastDot p)) := by
    intro p
    unfold inferFileType extTable
    split_ifs <;> simp_all <;> tauto
  exact ⟨h1, fun p h => by rw [h1 p, extAfterLastDot_of_no_dot h]⟩

/-! ## Claim C10: escaped spaces in path tokens -/

theorem goFieldsAux_no_space :
    ∀ (l cur : Str), (∀ c ∈ cur, goIsSpace c = false) →
      ∀ w ∈ goFieldsAux l cur, ∀ c ∈ w, goIsSpace c = false := by
  intro l
  induction l with
  | nil =>
    intro cur hcur w hw
    unfold goFieldsAux at hw
    split at hw
    · simp at hw
    · simp only [List.mem_singleton] at hw
      subst hw
      exact fun c hc => hcur c (List.mem_reverse.mp hc)
  | cons a l ih =>
    intro cur hcur w hw
    unfold goFieldsAux at hw
    split at hw
    · split at hw
      · exact ih [] (by simp) w hw
      · rcases List.mem_cons.mp hw with rfl | hw'
        · exact fun c hc => hcur c (List.mem_reverse.mp hc)
        · exact ih [] (by simp) w hw'
    · rename_i ha
      refine ih (a :: cur) ?_ w hw
      intro c hc
      rcases List.mem_cons.mp hc with rfl | hc'
      · exact Bool.not_eq_true _ ▸ ha
      · exact hcur c hc'

theorem splitSeqFirst_bs_space_none :
    ∀ l : Str, ' ' ∉ l → splitSeqFirst ['\\', ' '] l = none := by
  intro l
  induction l with
  | nil => intro _; rfl
  | cons c r ih =>
    intro h
    unfold splitSeqFirst
    rw [if_neg ?hneg, ih fun hr => h (by simp [hr])]
    · rfl
    case hneg =>
      intro hq
      cases r with
      | nil => simp [goStarts] at hq
      | cons d rs =>
        simp only [goStarts, Bool.and_eq_true, beq_iff_eq] at hq
        exact h (by simp [hq.2.1.symm])

theorem goReplaceAll_bs_space_id {l : Str} (h : ' ' ∉ l) (rep : Str) :
    goReplaceAll ['\\', ' '] rep l = l := by
  unfold goReplaceAll goReplaceAllF
  rw [splitSeqFirst_bs_space_none l h]

/-- C10: `parseFilePaths` splits on whitespace BEFORE unescaping, so a
token can never contain a space and the `\ ` replacement is dead code:
`my\ file.c` parses to the two paths `my\` and `file.c` (the backslash is
even kept), never to the single path `my file.c`; in general no returned
path contains a space. -/
theorem parseFilePaths_escaped_space_dead :
    parseFilePaths "my\\ file.c".data = ["my\\".data, "file.c".data]
    ∧ (∀ (input : Str) (p : Str), p ∈ parseFilePaths input → ' ' ∉ p) := by
  refine ⟨by decide, ?_⟩
  intro input p hp
  unfold parseFilePaths at hp
  split at hp
  · simp at hp
  · simp only [List.mem_filterMap] at hp
    obtain ⟨part, hpart, hsome⟩ := hp
    have hnos : ∀ c ∈ part, goIsSpace c = false :=
      goFieldsAux_no_space input [] (by simp) part hpart
    have hnospace : ' ' ∉ part := fun hsp => by
      have := hnos ' ' hsp
      simp [goIsSpace] at this
    rw [goReplaceAll_bs_space_id hnospace] at hsome
    split at hsome
    · simp at hsome
    · intro hsp
      rw [Option.some_inj.mp hsome] at hnospace
      exact hnospace hsp

/-! ## Claim C5: line continuation -/

/-- C5 (counterexample): the continuation join does NOT produce exactly
one space: `command = gcc $` keeps the space before the stripped `$` and
one more space is inserted, so the rule's command is `gcc  -O2 $in` (two
spaces), not `gcc -O2 $in`. -/
theorem continuation_not_single_space :
    parsePlan "rule cc\n  command = gcc $\n  -O2 $in"
      = .ok [.pRule ⟨"cc".data, "gcc  -O2 $in".data, [], emptyObjStr⟩]
    ∧ "gcc  -O2 $in".data ≠ "gcc -O2 $in".data := by
  refine ⟨by rfl, by decide⟩

/-- C5 (amended): joining a continuation strips the trailing `$` and
concatenates the stripped line, exactly one inserted space, and the
trimmed next physical line — whitespace before the `$` is preserved, so
`command = gcc $` followed by `  -O2 $in` yields the command
`"gcc  -O2 $in"` with two spaces between `gcc` and `-O2`. -/
theorem continuation_join_amended :
    (∀ (line : Str) (lastRaw next : String) (rest : List String),
      goEnds ['$'] line = true →
      joinCont line lastRaw (next :: rest)
        = joinCont (line.dropLast ++ ' ' :: goTrim next.data) next rest)
    ∧ parsePlan "rule cc\n  command = gcc $\n  -O2 $in"
        = .ok [.pRule ⟨"cc".data, "gcc  -O2 $in".data, [], emptyObjStr⟩] := by
  refine ⟨?_, by rfl⟩
  intro line lastRaw next rest h
  conv_lhs => unfold joinCont
  rw [if_pos h]

/-! ## Claim C4: parser error handling -/

theorem goStarts_head {a : Char} {p l : Str} (h : goStarts (a :: p) l = true) :
    ∃ xs, l = a :: xs := by
  cases l with
  | nil => simp [goStarts] at h
  | cons x xs =>
    simp only [goStarts, Bool.and_eq_true, beq_iff_eq] at h
    exact ⟨xs, by rw [h.1]⟩

theorem goStarts_false_of_head_ne {a c : Char} {p1 p2 l : Str}
    (h : goStarts (a :: p1) l = true) (hne : c ≠ a) :
    goStarts (c :: p2) l = false := by
  obtain ⟨xs, rfl⟩ := goStarts_head h
  simp [goStarts, hne]

/-- C4: at every flush point — the next `rule`, `build`, `pool` or
`variable` construct, or the end of input — an open rule with no command
fails the whole parse with the missing-command error; a `build` line with
no `:` is skipped without failing (the parse continues on the remaining
lines); and an open build with no outputs fails at its flush point with
the empty-outputs error.  Concretely: `rule broken` followed by a `build`
line fails with `missingCommand "broken"`, a colon-less `build` line in
otherwise valid input parses successfully, and `build : cc in.c` fails
with `emptyOutputs`. -/
theorem parse_flush_errors :
    (∀ (f : Nat) (r : NinjaRule) (cb : Option PBuild) (acc : List POp),
      r.command = [] →
      parseLinesF f [] (some r) cb acc = .error (.missingCommand r.name))
    ∧ (∀ (f : Nat) (raw : String) (rest : List String) (r : NinjaRule)
        (cb : Option PBuild) (acc : List POp),
      r.command = [] →
      goTrim raw.data ≠ [] →
      goStarts ['#'] (goTrim raw.data) = false →
      (goStarts "rule ".data (joinCont (goTrim raw.data) raw rest).1 = true
        ∨ goStarts "build ".data (joinCont (goTrim raw.data) raw rest).1 = true
        ∨ goStarts "pool ".data (joinCont (goTrim raw.data) raw rest).1 = true
        ∨ goStarts "variable ".data
            (joinCont (goTrim raw.data) raw rest).1 = true) →
      parseLinesF (f + 1) (raw :: rest) (some r) cb acc
        = .error (.missingCommand r.name))
    ∧ (∀ (f : Nat) (raw : String) (rest : List String) (acc : List POp),
      goTrim raw.data ≠ [] →
      goStarts ['#'] (goTrim raw.data) = false →
      goStarts "build ".data (joinCont (goTrim raw.data) raw rest).1 = true →
      splitFirst ':'
        (goTrim ((joinCont (goTrim raw.data) raw rest).1.drop 6)) = none →
      parseLinesF (f + 1) (raw :: rest) none none acc
        = parseLinesF f (joinCont (goTrim raw.data) raw rest).2.2
            none none acc)
    ∧ (∀ (f : Nat) (pb : PBuild) (acc : List POp),
      pb.outputs = [] →
      parseLinesF f [] none (some pb) acc = .error .emptyOutputs)
    ∧ parsePlan "rule broken\nbuild out: cc in"
        = .error (.missingCommand "broken".data)
    ∧ parsePlan "build nocolon\nrule cc\n  command = gcc"
        = .ok [.pRule ⟨"cc".data, "gcc".data, [], emptyObjStr⟩]
    ∧ parsePlan "build : cc in.c" = .error .emptyOutputs := by
  refine ⟨?_, ?_, ?_, ?_, by rfl, by rfl, by rfl⟩
  · intro f r cb acc h
    cases f <;> simp only [parseLinesF, flushRule, h, if_pos] <;> rfl
  · intro f raw rest r cb acc hcmd hne hnc hcon
    have hskip : (decide (goTrim raw.data = [])
        || goStarts ['#'] (goTrim raw.data)) = false := by
      simp [hne, hnc]
    simp only [parseLinesF, hskip, Bool.false_eq_true, if_false]
    rcases hcon with hc | hc | hc | hc
    · simp only [hc, if_true, flushRule, hcmd, if_pos]
      rfl
    · have hr : goStarts "rule ".data
          (joinCont (goTrim raw.data) raw rest).1 = false :=
        goStarts_false_of_head_ne hc (by decide)
      simp only [hc, hr, Bool.false_eq_true, if_false, if_true, flushRule,
        hcmd, if_pos]
      rfl
    · have hr : goStarts "rule ".data
          (joinCont (goTrim raw.data) raw rest).1 = false :=
        goStarts_false_of_head_ne hc (by decide)
      have hb : goStarts "build ".data
          (joinCont (goTrim raw.data) raw rest).1 = false :=
        goStarts_false_of_head_ne hc (by decide)
      simp only [hc, hr, hb, Bool.false_eq_true, if_false, if_true,
        Bool.or_true, Bool.true_or, flushRule, hcmd, if_pos]
      rfl
    · have hr : goStarts "rule ".data
          (joinCont (goTrim raw.data) raw rest).1 = false :=
        goStarts_false_of_head_ne hc (by decide)
      have hb : goStarts "build ".data
          (joinCont (goTrim raw.data) raw rest).1 = false :=
        goStarts_false_of_head_ne hc (by decide)
      simp only [hc, hr, hb, Bool.false_eq_true, if_false, if_true,
        Bool.or_true, Bool.true_or, flushRule, hcmd, if_pos]
      rfl
  · intro f raw rest acc hne hnc hb hnocolon
    have hskip : (decide (goTrim raw.data = [])
        || goStarts ['#'] (goTrim raw.data)) = false := by
      simp [hne, hnc]
    have hr : goStarts "rule ".data
        (joinCont (goTrim raw.data) raw rest).1 = false :=
      goStarts_false_of_head_ne hb (by decide)
    simp only [parseLinesF, hskip, Bool.false_eq_true, if_false, hr, hb,
      if_true, flushRule, flushBuild, parseBuildLine, hnocolon,
      List.append_nil]
    show parseLinesF f (joinCont (goTrim raw.data) raw rest).2.2 none none
        (acc ++ [] ++ []) = _
    rw [List.append_nil, List.append_nil]
  · intro f pb acc h
    have hlen : pb.outputs.length = 0 := by simp [h]
    cases f <;>
        simp only [parseLinesF, flushRule, flushBuild, saveBuild, hlen,
          if_pos] <;>
      rfl

/-! ## Claim C6: the variables JSON round trip -/

theorem escChar_ne_nil (c : Char) : escChar c ≠ [] := by
  unfold escChar
  split_ifs <;> simp

theorem length_le_escStr (s : Str) : s.length ≤ (escStr s).length := by
  induction s with
  | nil => simp [escStr]
  | cons c s ih =>
    have h1 : 1 ≤ (escChar c).length := by
      cases h : escChar c with
      | nil => exact absurd h (escChar_ne_nil c)
      | cons x xs => simp
    simp only [escStr, List.flatMap_cons, List.length_append, List.length_cons]
    unfold escStr at ih
    omega

theorem unhex_hexDigit : ∀ n : Nat, n < 16 → unhex (hexDigit n) = some n := by
  decide

theorem parseStrBody_escStr :
    ∀ (s : Str) (f : Nat) (rest : Str), s.length + 1 ≤ f →
      parseStrBody f (escStr s ++ '"' :: rest) = some (s, rest) := by
  intro s
  induction s with
  | nil =>
    intro f rest hf
    match f, hf with
    | f + 1, _ => simp [escStr, parseStrBody]
  | cons c s ih =>
    intro f rest hf
    match f, hf with
    | f + 1, hf =>
      have hf' : s.length + 1 ≤ f := by
        simp only [List.length_cons] at hf
        omega
      have ihs := ih f rest hf'
      rw [show escStr (c :: s) = escChar c ++ escStr s from rfl,
        List.append_assoc]
      by_cases h1 : c = '"'
      · subst h1
        simpa [escChar, parseStrBody] using congrArg (Option.map
          fun p => ('"' :: p.1, p.2)) ihs
      by_cases h2 : c = '\\'
      · subst h2
        simpa [escChar, parseStrBody] using congrArg (Option.map
          fun p => ('\\' :: p.1, p.2)) ihs
      by_cases h3 : c = '\n'
      · subst h3
        simpa [escChar, parseStrBody] using congrArg (Option.map
          fun p => ('\n' :: p.1, p.2)) ihs
      by_cases h4 : c = '\r'
      · subst h4
        simpa [escChar, parseStrBody] using congrArg (Option.map
          fun p => ('\r' :: p.1, p.2)) ihs
      by_cases h5 : c = '\t'
      · subst h5
        simpa [escChar, parseStrBody] using congrArg (Option.map
          fun p => ('\t' :: p.1, p.2)) ihs
      by_cases h6 : c.toNat < 0x20 || c = '<' || c = '>' || c = '&'
      · have hesc : escChar c
            = ['\\', 'u', '0', '0', hexDigit (c.toNat / 16),
               hexDigit (c.toNat % 16)] := by
          unfold escChar
          rw [if_neg h1, if_neg h2, if_neg h3, if_neg h4, if_neg h5, if_pos h6]
        have h6' : ((c.toNat < 32 ∨ c = '<') ∨ c = '>') ∨ c = '&' := by
          simpa using h6
        have hlt : c.toNat < 64 := by
          rcases h6' with ((h | h) | h) | h
          · omega
          · subst h; decide
          · subst h; decide
          · subst h; decide
        have hu0 : unhex '0' = some 0 := by decide
        have hu1 : unhex (hexDigit (c.toNat / 16)) = some (c.toNat / 16) :=
          unhex_hexDigit _ (by omega)
        have hu2 : unhex (hexDigit (c.toNat % 16)) = some (c.toNat % 16) :=
          unhex_hexDigit _ (by omega)
        have harith : c.toNat / 16 * 16 + c.toNat % 16 = c.toNat := by omega
        rw [hesc]
        simp +decide [parseStrBody, hu0, hu1, hu2, ihs, harith,
          Char.ofNat_toNat]
      by_cases h7 : c.toNat = 0x2028 || c.toNat = 0x2029
      · have hesc : escChar c
            = ['\\', 'u', '2', '0', '2', hexDigit (c.toNat % 16)] := by
          unfold escChar
          rw [if_neg h1, if_neg h2, if_neg h3, if_neg h4, if_neg h5,
            if_neg h6, if_pos h7]
        have hc : c.toNat = 8232 ∨ c.toNat = 8233 := by simpa using h7
        have hcn : Char.ofNat c.toNat = c := Char.ofNat_toNat c
        rcases hc with hc | hc
        · have hm : hexDigit (c.toNat % 16) = '8' := by
            rw [hc]
            decide
          have hcn' : Char.ofNat 8232 = c := by rw [← hc]; exact hcn
          rw [hesc, hm]
          simp +decide [parseStrBody, ihs, hcn',
            (by decide : unhex '2' = some 2),
            (by decide : unhex '0' = some 0),
            (by decide : unhex '8' = some 8)]
        · have hm : hexDigit (c.toNat % 16) = '9' := by
            rw [hc]
            decide
          have hcn' : Char.ofNat 8233 = c := by rw [← hc]; exact hcn
          rw [hesc, hm]
          simp +decide [parseStrBody, ihs, hcn',
            (by decide : unhex '2' = some 2),
            (by decide : unhex '0' = some 0),
            (by decide : unhex '9' = some 9)]
      · have hesc : escChar c = [c] := by
          unfold escChar
          rw [if_neg h1, if_neg h2, if_neg h3, if_neg h4, if_neg h5,
            if_neg h6, if_neg h7]
        rw [hesc, List.singleton_append]
        have hstep : parseStrBody (f + 1) (c :: (escStr s ++ '"' :: rest))
            = (parseStrBody f (escStr s ++ '"' :: rest)).map
                fun p => (c :: p.1, p.2) := by
          simp only [parseStrBody]
          rw [if_neg h1, if_neg h2]
        rw [hstep, ihs]
        rfl

theorem expectQuote_cons (r : Str) : expectQuote ('"' :: r) = some r := rfl

theorem expectColonQuote_cons (r : Str) :
    expectColonQuote (':' :: '"' :: r) = some r := rfl

theorem pairEnd_comma (r : Str) : pairEnd (',' :: r) = some (true, r) := rfl

theorem pairEnd_brace (r : Str) : pairEnd ('}' :: r) = some (false, r) := rfl

theorem expectOpenBrace_cons (r : Str) :
    expectOpenBrace ('{' :: r) = some r := rfl

theorem parsePairsF_marshal :
    ∀ (l : List (Str × Str)) (k v : Str) (rest : Str) (f : Nat),
      l.length + 1 ≤ f →
      parsePairsF f (marshalPairs ((k, v) :: l) ++ '}' :: rest)
        = some ((k, v) :: l, rest) := by
  intro l
  induction l with
  | nil =>
    intro k v rest f hf
    match f, hf with
    | f + 1, _ =>
      simp only [marshalPairs, qstr, List.append_assoc, List.cons_append,
        List.singleton_append, List.nil_append]
      simp only [parsePairsF, expectQuote_cons, Option.some_bind]
      rw [parseStrBody_escStr k]
      · simp only [Option.some_bind, expectColonQuote_cons]
        rw [parseStrBody_escStr v]
        · simp only [Option.some_bind, pairEnd_brace]
          rfl
        · have := length_le_escStr v
          simp only [List.length_append, List.length_cons]
          omega
      · have := length_le_escStr k
        simp only [List.length_append, List.length_cons]
        omega
  | cons p l ih =>
    intro k v rest f hf
    match f, hf with
    | f + 1, hf =>
      have hfl : l.length + 1 ≤ f := by
        simp only [List.length_cons] at hf
        omega
      have hrec := ih p.1 p.2 rest f hfl
      have hmp : marshalPairs ((k, v) :: (p.1, p.2) :: l)
          = qstr k ++ ':' :: qstr v ++ ','
            :: marshalPairs ((p.1, p.2) :: l) := rfl
      rw [show p = (p.1, p.2) from rfl, hmp]
      simp only [qstr, List.append_assoc, List.cons_append,
        List.singleton_append, List.nil_append]
      simp only [parsePairsF, expectQuote_cons, Option.some_bind]
      rw [parseStrBody_escStr k]
      · simp only [Option.some_bind, expectColonQuote_cons]
        rw [parseStrBody_escStr v]
        · simp only [Option.some_bind, pairEnd_comma, if_true, hrec]
          rfl
        · have := length_le_escStr v
          simp only [List.length_append, List.length_cons]
          omega
      · have := length_le_escStr k
        simp only [List.length_append, List.length_cons]
        omega

theorem marshalPairs_length_ge (l : List (Str × Str)) :
    l.length ≤ (marshalPairs l).length := by
  induction l with
  | nil => simp [marshalPairs]
  | cons p l ih =>
    obtain ⟨k, v⟩ := p
    cases l with
    | nil => simp [marshalPairs, qstr]
    | cons q m =>
      rw [show marshalPairs ((k, v) :: q :: m)
        = qstr k ++ ':' :: qstr v ++ ',' :: marshalPairs (q :: m) from rfl]
      simp only [List.length_append, List.length_cons, qstr] at ih ⊢
      omega

/-- C6: `SetVariables` followed by `GetVariables` is the identity on
every string→string map (a map is represented by its association list
with strictly sorted keys, the order in which `json.Marshal` emits it);
the serialized `variables` field is never the empty string, parses as
JSON, and the empty map is serialized as the two-character text `{}`. -/
theorem setVariables_getVariables_roundtrip :
    (∀ l : List (Str × Str),
      l.Pairwise (fun a b => strLtB a.1 b.1 = true) →
      getVariables (setVariables l) = some l)
    ∧ (∀ l : List (Str × Str), setVariables l ≠ [])
    ∧ setVariables [] = emptyObjStr := by
  refine ⟨?_, ?_, rfl⟩
  · intro l hsorted
    have hsort : List.insertionSort varKeyOrd l = l := by
      apply List.Sorted.insertionSort_eq
      exact hsorted.imp fun h => by simp [varKeyOrd, h]
    cases l with
    | nil => rfl
    | cons p ls =>
      obtain ⟨k, v⟩ := p
      have hmp : ∃ t, marshalPairs ((k, v) :: ls) = '"' :: t := by
        cases ls with
        | nil => exact ⟨_, rfl⟩
        | cons q m => exact ⟨_, rfl⟩
      obtain ⟨t, ht⟩ := hmp
      have hsv : setVariables ((k, v) :: ls)
          = '{' :: marshalPairs ((k, v) :: ls) ++ ['}'] := by
        unfold setVariables jsonMarshalMap
        rw [if_neg (by simp), hsort]
      rw [hsv, List.cons_append]
      have hne2 : '{' :: (marshalPairs ((k, v) :: ls) ++ ['}'])
          ≠ emptyObjStr := by
        rw [ht]
        simp [emptyObjStr]
      unfold getVariables
      rw [if_neg (by simp [hne2])]
      unfold jsonUnmarshalMap
      rw [if_neg hne2]
      rw [expectOpenBrace_cons, Option.some_bind]
      have hlen := marshalPairs_length_ge ((k, v) :: ls)
      rw [show marshalPairs ((k, v) :: ls) ++ ['}']
        = marshalPairs ((k, v) :: ls) ++ '}' :: [] from rfl]
      rw [parsePairsF_marshal ls k v [] _ (by
        simp only [List.length_cons] at hlen
        simp only [List.length_append, List.length_cons]
        omega)]
      rfl
  · intro l
    unfold setVariables
    split
    · simp [emptyObjStr]
    · unfold jsonMarshalMap
      simp

/-! ## Witnesses: the hypothesis-bearing theorems at concrete inputs -/

theorem addBuild_dependsOn_characterization_witness :
    (⟨.targetId "out".data, .rel "depends_on",
        .node (.fileId "in.c".data)⟩ : Quad) ∈
      addBuild [] ⟨"B".data, .ruleId "cc".data, emptyObjStr, []⟩
        ["in.c".data] ["out".data] ["h.h".data] ["gen.h".data]
    ∧ (⟨.buildId "B".data, .rel "has_order_dep",
        .node (.fileId "gen.h".data)⟩ : Quad) ∈
      addBuild [] ⟨"B".data, .ruleId "cc".data, emptyObjStr, []⟩
        ["in.c".data] ["out".data] ["h.h".data] ["gen.h".data]
    ∧ (⟨.targetId "out".data, .rel "depends_on",
        .node (.fileId "gen.h".data)⟩ : Quad) ∉
      addBuild [] ⟨"B".data, .ruleId "cc".data, emptyObjStr, []⟩
        ["in.c".data] ["out".data] ["h.h".data] ["gen.h".data] :=
  ⟨(addBuild_dependsOn_characterization [] _ _ _ _ _).2.1 _ (by decide) _
      (Or.inl (by decide)),
   (addBuild_dependsOn_characterization [] _ _ _ _ _).2.2.1 _ (by decide),
   (addBuild_dependsOn_characterization [] _ _ _ _ _).2.2.2 _ (by decide) _
      (by decide) (by decide) (by decide) (by decide)⟩

theorem getBuildDependencies_addBuild_witness :
    getBuildDependencies
        (addBuild [] ⟨"out".data, .ruleId "cc".data, emptyObjStr, []⟩
          ["in.c".data] ["out".data] ["h.h".data] ["gen.h".data])
        "out".data
      = some ((["in.c".data] ++ ["h.h".data]).map fun p =>
          ⟨p, inferFileType p⟩) :=
  getBuildDependencies_addBuild
    ⟨"out".data, .ruleId "cc".data, emptyObjStr, []⟩
    ["in.c".data] ["out".data] ["h.h".data] ["gen.h".data]
    (by decide) (by decide) (by decide)

theorem parse_flush_errors_witness :
    parseLinesF 1 [] (some ⟨"r".data, [], [], emptyObjStr⟩) none []
      = .error (.missingCommand "r".data)
    ∧ parseLinesF 1 ["build x: cc"] (some ⟨"r".data, [], [], emptyObjStr⟩)
        none []
      = .error (.missingCommand "r".data)
    ∧ parseLinesF 1 ["build nocolon"] none none []
      = parseLinesF 0
          (joinCont (goTrim "build nocolon".data) "build nocolon" []).2.2
          none none []
    ∧ parseLinesF 1 []
        none (some ⟨"cc".data, [], [], [], [], [], "default".data⟩) []
      = .error .emptyOutputs :=
  ⟨parse_flush_errors.1 1 _ none [] rfl,
   parse_flush_errors.2.1 0 "build x: cc" [] _ none [] rfl (by decide)
     (by decide) (Or.inr (Or.inl (by decide))),
   parse_flush_errors.2.2.1 0 "build nocolon" [] [] (by decide) (by decide)
     (by decide) (by decide),
   parse_flush_errors.2.2.2.1 1 _ [] rfl⟩

theorem continuation_join_amended_witness :
    joinCont "x $".data "x $" ["y"]
      = joinCont ("x $".data.dropLast ++ ' ' :: goTrim "y".data) "y" [] :=
  continuation_join_amended.1 "x $".data "x $" "y" [] (by decide)

theorem setVariables_getVariables_roundtrip_witness :
    getVariables (setVariables [("a".data, "1".data), ("b".data, "2".data)])
      = some [("a".data, "1".data), ("b".data, "2".data)]
    ∧ setVariables [("a".data, "1".data)] ≠ [] :=
  ⟨setVariables_getVariables_roundtrip.1 _ (by decide),
   setVariables_getVariables_roundtrip.2.1 _⟩

/-- A small content whose load succeeds, for the idempotence witness. -/
def w7Content : String := "rule cc\n  command = gcc\nbuild a.o: cc a.c"

/-- The store produced by loading `w7Content` into the empty store. -/
def w7Store : Store :=
  match parseAndLoad [] w7Content with
  | .ok S => S
  | .error _ => []

theorem addRule_addBuild_load_idempotent_witness :
    addRule (addRule [] ⟨"cc".data, "gcc".data, [], emptyObjStr⟩)
        ⟨"cc".data, "gcc".data, [], emptyObjStr⟩
      = addRule [] ⟨"cc".data, "gcc".data, [], emptyObjStr⟩
    ∧ parseAndLoad w7Store w7Content = .ok w7Store :=
  ⟨addRule_addBuild_load_idempotent.1 [] _,
   addRule_addBuild_load_idempotent.2.2 [] w7Store w7Content (by rfl)⟩

theorem inferFileType_amended_witness :
    inferFileType "foo.CPP".data
      = extTable (goToLower (extAfterLastDot "foo.CPP".data))
    ∧ inferFileType "main".data = extTable (goToLower "main".data) :=
  ⟨inferFileType_amended.1 "foo.CPP".data,
   inferFileType_amended.2 "main".data (by decide)⟩

theorem parseFilePaths_escaped_space_dead_witness :
    ' ' ∉ ("my\\".data : Str) :=
  parseFilePaths_escaped_space_dead.2 "my\\ file.c".data "my\\".data
    (by decide)
